import Mathlib

/-!
Verification of the reorganization-planning-and-execution engine shared by the
plex-video-importer scripts.  Python strings are embedded as `List Char`;
the filesystem is embedded as explicit lists of paths / directory listings.
Each definition is a direct translation of the Python function named in its
doc comment.
-/

set_option maxRecDepth 10000

namespace PlexImport

/-- Python strings are modelled as lists of characters. -/
abbrev Str := List Char

/-- Python's `\s` character class (ASCII subset: the whitespace characters the
scripts actually meet). -/
def isWs (c : Char) : Bool :=
  c = ' ' || c = '\t' || c = '\n' || c = '\x0d' || c = '\x0b' || c = '\x0c'

/-- ASCII decimal digit test (`[0-9]` in the regexes). -/
def isDigitC (c : Char) : Bool := '0' ≤ c && c ≤ '9'

/-- Python `str.strip()`: remove leading and trailing whitespace. -/
def stripWs (s : Str) : Str :=
  (s.dropWhile isWs).rdropWhile isWs

/-- Auxiliary for `squeeze`: the flag records whether the previous character
belonged to a whitespace run that has already emitted its single space. -/
def squeezeAux : Bool → Str → Str
  | _, [] => []
  | prevWs, c :: cs =>
    if isWs c then
      if prevWs then squeezeAux true cs else ' ' :: squeezeAux true cs
    else c :: squeezeAux false cs

/-- `WS_RE.sub(" ", s)`: replace every maximal run of whitespace by a single
space (`WS_RE = re.compile(r"\s+")`). -/
def squeeze (s : Str) : Str := squeezeAux false s

/-- `WS_RE.sub(" ", s).strip()`: the whitespace-collapse-and-trim step every
script ends its normalization with. -/
def wsCollapse (s : Str) : Str := stripWs (squeeze s)

/-- A string is squeezed when no two adjacent characters are both whitespace
and every whitespace character is a plain space. -/
def Squeezed (s : Str) : Prop :=
  List.Chain' (fun a b => ¬(isWs a = true ∧ isWs b = true)) s ∧
    ∀ c ∈ s, isWs c = true → c = ' '

/-! ### Title normalization (garysusan_rename_episode_files.py, plex_title_from_filename.py) -/

/-- `BRACKET_ID_RE.sub("", s)` with `BRACKET_ID_RE = re.compile(r"\s*\[[0-9]+\]\s*$")`:
remove a trailing bracketed numeric id together with the whitespace around it. -/
def bracketStrip (s : Str) : Str :=
  match (s.reverse.dropWhile isWs) with
  | ']' :: r2 =>
    let ds := r2.takeWhile isDigitC
    match ds, r2.drop ds.length with
    | _ :: _, '[' :: r3 => (r3.dropWhile isWs).reverse
    | _, _ => s
  | _ => s

/-- `DUP_RE.sub("", s)` / `DUP_SUFFIX_RE.sub("", s)` with pattern
`r"\s*\(\d+\)\s*$"`: remove a trailing parenthesised duplicate counter. -/
def dupStrip (s : Str) : Str :=
  match (s.reverse.dropWhile isWs) with
  | ')' :: r2 =>
    let ds := r2.takeWhile isDigitC
    match ds, r2.drop ds.length with
    | _ :: _, '(' :: r3 => (r3.dropWhile isWs).reverse
    | _, _ => s
  | _ => s

/-- Case-insensitive literal match of `p` at the start of `t`; on success
returns the remainder of `t` (models `re.escape(p)` under `re.IGNORECASE`). -/
def ciDropLit : Str → Str → Option Str
  | [], t => some t
  | _ :: _, [] => none
  | p :: ps, c :: cs => if p.toLower = c.toLower then ciDropLit ps cs else none

/-- Does `r` match `^\(cid\s+[^)]+\)\s*$` (case-insensitive `cid`)?  Helper
for `CID_SUFFIX_RE` / `CID_RE`. -/
def cidTail (r : Str) : Bool :=
  match r with
  | '(' :: r1 =>
    match ciDropLit ('c' :: 'i' :: 'd' :: []) r1 with
    | some r2 =>
      let seg := r2.takeWhile (fun c => !(c = ')'))
      (match r2.drop seg.length with
       | ')' :: r4 =>
         decide (2 ≤ seg.length) &&
           (match seg with | c :: _ => isWs c | [] => false) && r4.all isWs
       | _ => false)
    | none => false
  | _ => false

/-- `CID_SUFFIX_RE.sub("", s)` with pattern `r"\s*\(cid\s+[^)]+\)\s*$"`
(case-insensitive): remove a trailing caller-id marker; the leftmost position
whose tail matches wins, and the whitespace run before it is removed too. -/
def cidStrip (s : Str) : Str :=
  match (List.range (s.length + 1)).findSome?
      (fun j => if cidTail (s.drop j) then some j else none) with
  | some j => (s.take j).rdropWhile isWs
  | none => s

/-- One candidate of `strip_prefix`'s loop body: does
`^<escaped p>\s*(?:-|:|：)\s*` (IGNORECASE) match the start of `t`?  On a
match, return `t` with the matched region removed. -/
def stripEchoOne (p t : Str) : Option Str :=
  (ciDropLit p t).bind fun r =>
    match r.dropWhile isWs with
    | c :: rest =>
      if c = '-' || c = ':' || c = '：' then some (rest.dropWhile isWs) else none
    | [] => none

/-- `strip_prefix(title, prefixes)` (garysusan_rename_episode_files.py lines
44-50): the first candidate whose pattern matches is removed once, and the
result (or the unchanged title) is stripped. -/
def stripEchoes (prefixes : List Str) (t : Str) : Str :=
  match prefixes.findSome? (fun p => stripEchoOne p t) with
  | some r => stripWs r
  | none => stripWs t

/-- The garysusan per-file title normalization (lines 93-96 of
garysusan_rename_episode_files.py): strip a trailing bracket id and trim,
strip one leading collection-prefix echo, collapse whitespace and trim. -/
def normalizeGS (prefixes : List Str) (raw : Str) : Str :=
  wsCollapse (stripEchoes prefixes (stripWs (bracketStrip raw)))

/-- The title postprocessing of `title_from_file_path` (lines 115-119 of
plex_title_from_filename.py): strip trailing bracket id, caller-id marker and
duplicate counter, then collapse whitespace and trim. -/
def normalizePlexTitle (t : Str) : Str :=
  wsCollapse (dupStrip (cidStrip (bracketStrip t)))

/-! ### Filesystem path helpers (os.path.splitext, unique_path) -/

/-- Decimal digit extraction with explicit fuel (`fuel ≥ n` suffices), least
significant digit first; mirrors Python's decimal rendering of `n`. -/
def natDigitsAux : Nat → Nat → List Char
  | _, 0 => []
  | 0, _ + 1 => []
  | fuel + 1, n + 1 =>
    Nat.digitChar ((n + 1) % 10) :: natDigitsAux fuel ((n + 1) / 10)

/-- Python `str(n)` for a natural number. -/
def natRepr (n : Nat) : Str :=
  if n = 0 then ['0'] else (natDigitsAux n n).reverse

/-- Index of the last occurrence of `c` in `s` (Python `str.rfind`). -/
def lastIndexOf (c : Char) (s : Str) : Option Nat :=
  match s.reverse.findIdx? (fun d => d = c) with
  | some i => some (s.length - 1 - i)
  | none => none

/-- `os.path.splitext` (posixpath): split off the extension at the last dot of
the final path component, unless that component consists only of leading
dots up to it. -/
def splitext (p : Str) : Str × Str :=
  let sepIdx : Int := match lastIndexOf '/' p with | some i => (i : Int) | none => -1
  let dotIdx : Int := match lastIndexOf '.' p with | some i => (i : Int) | none => -1
  if sepIdx < dotIdx then
    let fnameStart := (sepIdx + 1).toNat
    let dotN := dotIdx.toNat
    if ((p.drop fnameStart).take (dotN - fnameStart)).any (fun c => !(c = '.')) then
      (p.take dotN, p.drop dotN)
    else (p, [])
  else (p, [])

/-- The candidate name `f"{base} ({n}){ext}"` tried by `unique_path`. -/
def mkSuffixed (base ext : Str) (n : Nat) : Str :=
  base ++ " (".data ++ natRepr n ++ ")".data ++ ext

/-- The `while os.path.exists(f"{base} ({n}){ext}"): n += 1` loop of
`unique_path`, with explicit fuel (`fs.length + 1` always suffices). -/
def uniquePathLoop (fs : List Str) (base ext : Str) : Nat → Nat → Str
  | 0, n => mkSuffixed base ext n
  | fuel + 1, n =>
    if mkSuffixed base ext n ∈ fs then uniquePathLoop fs base ext fuel (n + 1)
    else mkSuffixed base ext n

/-- `unique_path(path)` (garysusan_rename_episode_files.py lines 53-60,
jtswing_single_show.py lines 48-55, organize scripts): `fs` is the set of
paths for which `os.path.exists` holds. -/
def uniquePath (fs : List Str) (path : Str) : Str :=
  if path ∈ fs then
    uniquePathLoop fs (splitext path).1 (splitext path).2 (fs.length + 1) 2
  else path

/-! ### Variant promotion (promote_plex_appletv_variants.py) -/

/-- A planned promotion (`PlanItem` dataclass): the variant file, the original
it replaces, and where the original is backed up. -/
structure PlanItem where
  variant : Str
  original : Str
  backupOriginal : Str
deriving DecidableEq

/-- Python filesystem exceptions raised by `promote_one`. -/
inductive FsError
  | fileNotFound (p : Str)
  | fileExists (p : Str)
deriving DecidableEq

/-- One `os.rename(src, dst)` on the set of existing paths (POSIX rename:
`dst` is created, `src` disappears, a pre-existing `dst` is replaced). -/
def renameFs (fs : List Str) (src dst : Str) : List Str := dst :: fs.erase src

/-- `promote_one(p)` (promote_plex_appletv_variants.py lines 146-157): the
three existence checks precede any rename; on success the original is moved
to the backup location strictly before the variant is moved onto the
original.  Returns the outcome together with the renames performed, in
order (empty on failure: no partial state). -/
def promoteOne (fs : List Str) (p : PlanItem) :
    Except FsError (List Str) × List (Str × Str) :=
  if p.variant ∈ fs then
    if p.original ∈ fs then
      if p.backupOriginal ∈ fs then (.error (.fileExists p.backupOriginal), [])
      else
        let fs1 := renameFs fs p.original p.backupOriginal
        let fs2 := renameFs fs1 p.variant p.original
        (.ok fs2, [(p.original, p.backupOriginal), (p.variant, p.original)])
    else (.error (.fileNotFound p.original), [])
  else (.error (.fileNotFound p.variant), [])

/-- The apply loop of `main` (promote_plex_appletv_variants.py lines 210-220):
every plan item is attempted, a per-item `try/except` catches the failure
and the loop continues with the unchanged filesystem. -/
def promoteExecute (fs : List Str) (plan : List PlanItem) :
    List Str × List (PlanItem × Option FsError) :=
  plan.foldl
    (fun acc p =>
      match promoteOne acc.1 p with
      | (.ok fs2, _) => (fs2, acc.2 ++ [(p, none)])
      | (.error e, _) => (acc.1, acc.2 ++ [(p, some e)]))
    (fs, [])

/-- The apply loop of jtswing_single_show.py (lines 134-139): `os.rename` is
called with no per-item exception handler, so a missing source raises and
aborts the remaining operations.  Returns the surviving filesystem, the
report lines written before the failure, and the raising path, if any. -/
def jtswingApply (fs : List Str) : List (Str × Str) → List Str × List (Str × Str) × Option Str
  | [] => (fs, [], none)
  | (src, dst) :: rest =>
    if src ∈ fs then
      match jtswingApply (renameFs fs src dst) rest with
      | (fs2, moves, err) => (fs2, (src, dst) :: moves, err)
    else (fs, [], some src)

/-! ### Source matching (promote_plex_appletv_variants.py, reorg_plex_tv.py) -/

/-- The variant filename suffix `SUFFIX = ".plex-appletv.mp4"`. -/
def variantSuffix : Str := ".plex-appletv.mp4".data

/-- `os.path.basename` (posix). -/
def baseName (s : Str) : Str :=
  match lastIndexOf '/' s with
  | some i => s.drop (i + 1)
  | none => s

/-- `os.path.join(d, f)` for a relative `f`. -/
def joinPath (d f : Str) : Str := d ++ "/".data ++ f

/-- Numeric value of a digit string. -/
def digitsToNat (ds : Str) : Nat :=
  ds.foldl (fun a c => a * 10 + (c.toNat - '0'.toNat)) 0

/-- `f"{n:02d}"`. -/
def pad2 (n : Nat) : Str := if n < 10 then '0' :: natRepr n else natRepr n

/-- Does `r` begin with `" - S(\d{2})E(\d{1,3}) - "`?  On success returns the
two-digit season tag (verbatim) and the episode number.  Helper for
`SXXEXX_PREFIX` of promote_plex_appletv_variants.py. -/
def sxxexxTail (r : Str) : Option (Str × Nat) :=
  match r with
  | ' ' :: '-' :: ' ' :: 'S' :: rest =>
    let ds := rest.takeWhile isDigitC
    if ds.length = 2 then
      match rest.drop 2 with
      | 'E' :: rest2 =>
        let es := rest2.takeWhile isDigitC
        if 1 ≤ es.length ∧ es.length ≤ 3 then
          if (" - ".data).isPrefixOf (rest2.drop es.length) then
            some (ds, digitsToNat es)
          else none
        else none
      | _ => none
    else none
  | _ => none

/-- `SXXEXX_PREFIX.match(name)` with pattern
`^(?P<show>.+) - S(?P<s>\d{2})E(?P<e>\d{1,3}) - `: the greedy `show` group
takes the longest split whose tail matches. -/
def sxxexxMatch (name : Str) : Option (Str × Str × Nat) :=
  ((List.range name.length).reverse).findSome? fun i =>
    if i = 0 then none
    else
      match sxxexxTail (name.drop i) with
      | some (sTag, e) => some (name.take i, sTag, e)
      | none => none

/-- Tagged result of a source-matcher query. -/
inductive MatchOutcome
  | found (p : Str)
  | ambiguous (cands : List Str)
  | notFound
deriving DecidableEq

/-- The candidate set of the structured in-directory step (lines 110-118 of
promote_plex_appletv_variants.py): `.mp4` files in the directory listing that
are not variants and carry the expected `"show - SxxEyy - "` start. -/
def structCands (fns : List Str) (show_ sTag : Str) (e : Nat) : List Str :=
  fns.filter fun fn =>
    (".mp4".data).isSuffixOf fn && !(variantSuffix.isSuffixOf fn) &&
      (show_ ++ " - S".data ++ sTag ++ "E".data ++ pad2 e ++ " - ".data).isPrefixOf fn

/-- The candidate set of the basename fallback (lines 130-134): index entries
whose basename equals the expected bare filename of the variant. -/
def baseCands (idx : List (Str × Str)) (variantBase : Str) : List Str :=
  (idx.map Prod.fst).filter fun r =>
    baseName r = variantBase.take (variantBase.length - variantSuffix.length) ++ ".mp4".data

/-- Decision on the structured candidate set (lines 119-128): exactly one
candidate is a find, several stop the chain as ambiguous, zero fall through. -/
def structPick (dirFull : Str) : List Str → Option MatchOutcome
  | [c] => some (.found (joinPath dirFull c))
  | c1 :: c2 :: rest => some (.ambiguous (c1 :: c2 :: rest))
  | [] => none

/-- The structured in-directory step (lines 102-128): requires an SxxEyy parse
of the variant basename and an existing directory. -/
def structStep (dirListing : Option (List Str)) (dirFull variantBase : Str) :
    Option MatchOutcome :=
  match sxxexxMatch variantBase, dirListing with
  | some (sh, sTag, e), some fns => structPick dirFull (structCands fns sh sTag e)
  | _, _ => none

/-- The basename fallback (lines 130-137): a singleton candidate set resolves
through the index; zero or several candidates leave the variant unmatched. -/
def baseFallback (idx : List (Str × Str)) (variantBase : Str) : MatchOutcome :=
  match baseCands idx variantBase with
  | [c] =>
    match idx.lookup c with
    | some orig => .found orig
    | none => .notFound
  | _ => .notFound

/-- The per-variant original-matching chain of `plan_promotions`
(promote_plex_appletv_variants.py lines 96-137): exact relative-path lookup,
then the structured in-directory step, then the basename fallback; a variant
with no surviving candidate is reported as having no matching original. -/
def matchOriginal (idx : List (Str × Str)) (dirListing : Option (List Str))
    (dirFull variantBase candidateRel : Str) (allowBasenameFallback : Bool) :
    MatchOutcome :=
  match idx.lookup candidateRel with
  | some orig => .found orig
  | none =>
    match structStep dirListing dirFull variantBase with
    | some r => r
    | none =>
      if allowBasenameFallback then baseFallback idx variantBase
      else .notFound

/-- Python `needle in hay` substring containment. -/
def containsSub (needle hay : Str) : Bool :=
  (List.range (hay.length + 1)).any fun i => needle.isPrefixOf (hay.drop i)

/-- `permalink_to_base(permalink)` (reorg_plex_tv.py lines 100-104). -/
def permalinkToBase (permalink : Str) : Str :=
  let s := if ("mp4".data).isSuffixOf permalink then
    permalink.take (permalink.length - 3) else permalink
  (s.dropWhile (fun c => c = '-' || c = '_')).rdropWhile (fun c => c = '-' || c = '_')

/-- `find_source_file(root, collection_dir, permalink, prefer_non_variants)`
(reorg_plex_tv.py lines 137-160): `listing` is the directory's file listing in
`os.listdir` order, `none` when the directory does not exist.  The fallback
returns the first `startswith` match of the listing. -/
def findSourceFile (dpath : Str) (listing : Option (List Str)) (permalink : Str)
    (preferNonVariants : Bool) : Option Str :=
  let base := permalinkToBase permalink
  let direct := base ++ ".mp4".data
  if direct ∈ (match listing with | some fns => fns | none => []) then
    if preferNonVariants && containsSub (".plex-appletv".data) (baseName direct) then none
    else some (joinPath dpath direct)
  else
    match listing with
    | none => none
    | some fns =>
      match fns.find? (fun fn =>
          (".mp4".data).isSuffixOf fn && base.isPrefixOf fn &&
            !(preferNonVariants && containsSub (".plex-appletv".data) fn)) with
      | some fn => some (joinPath dpath fn)
      | none => none

/-! ### Episode numbering (organize_uscreen_tree_as_show.py lines 144-156,
organize_dance_tvshows.py lines 206-216) -/

/-- The per-season numbering loop: a parsed ordinal is kept verbatim, a file
without one takes the running sequence counter, which starts at 1 and is
advanced only for such files. -/
def seqFill : List (Option Nat) → Nat → List Nat
  | [], _ => []
  | some e :: rest, seq => e :: seqFill rest seq
  | none :: rest, seq => seq :: seqFill rest (seq + 1)

/-- Episode assignment for one season group, including the `have_any` switch
(`ep = extracted[i] if have_any else None`). -/
def assignEpisodes (extracted : List (Option Nat)) : List Nat :=
  if extracted.any Option.isSome then seqFill extracted 1
  else seqFill (extracted.map fun _ => none) 1

/-! ### Manifest-driven reorganization (reorg_plex_tv.py) -/

/-- A parsed manifest line (`Entry` dataclass). -/
structure Entry where
  category : Option Str
  collection : Option Str
  playlistIndex : Option Nat
  collectionIndex : Option Nat
  cid : Option Str
  permalink : Option Str
deriving DecidableEq

/-- `INVALID_FS_CHARS = re.compile(r"[\\/:*?\"<>|]")`. -/
def invalidFs (c : Char) : Bool :=
  c = '\\' || c = '/' || c = ':' || c = '*' || c = '?' || c = '"' ||
    c = '<' || c = '>' || c = '|'

/-- `safe_component(s)`: invalid filesystem characters become spaces, then
whitespace is collapsed and trimmed. -/
def safeComponent (s : Str) : Str :=
  wsCollapse (s.map fun c => if invalidFs c then ' ' else c)

/-- `re.split(r"[-_]+", s)` with explicit fuel (`s.length` suffices). -/
def splitSepsAux : Nat → Str → List Str
  | 0, s => [s]
  | fuel + 1, s =>
    let w := s.takeWhile (fun c => !(c = '-' || c = '_'))
    match s.dropWhile (fun c => !(c = '-' || c = '_')) with
    | [] => [w]
    | _ :: r => w :: splitSepsAux fuel (r.dropWhile (fun c => c = '-' || c = '_'))

def splitSeps (s : Str) : List Str := splitSepsAux s.length s

def isHexDigitC (c : Char) : Bool := isDigitC c || ('a' ≤ c && c ≤ 'f')

def isAlphaC (c : Char) : Bool := ('a' ≤ c && c ≤ 'z') || ('A' ≤ c && c ≤ 'Z')

def isWordC (c : Char) : Bool := isAlphaC c || isDigitC c || c = '_'

def isUpperC (c : Char) : Bool := 'A' ≤ c && c ≤ 'Z'

/-- The token filters of `title_from_permalink` (lines 111-123): hex ids of
length ≥ 5, bare `mov`/`mp4`, `\d+mov`, and `\d+p\w*` are dropped. -/
def tokenDropped (p : Str) : Bool :=
  let lp := p.map Char.toLower
  (decide (5 ≤ lp.length) && lp.all isHexDigitC) ||
  (lp = "mov".data || lp = "mp4".data) ||
  (decide (1 ≤ (lp.takeWhile isDigitC).length) &&
    decide (lp.drop (lp.takeWhile isDigitC).length = "mov".data)) ||
  (decide (1 ≤ (lp.takeWhile isDigitC).length) &&
    (match lp.drop (lp.takeWhile isDigitC).length with
     | 'p' :: rest => rest.all isWordC
     | _ => false))

/-- Python `str.isupper`: at least one cased character, all cased characters
uppercase (ASCII). -/
def pyIsUpper (p : Str) : Bool :=
  p.any isAlphaC && p.all (fun c => !isAlphaC c || isUpperC c)

/-- `p[:1].upper() + p[1:]`. -/
def capFirst (p : Str) : Str :=
  match p with
  | [] => []
  | c :: cs => c.toUpper :: cs

/-- `title_from_permalink(permalink)` (reorg_plex_tv.py lines 107-134). -/
def titleFromPermalink (permalink : Str) : Str :=
  let base := permalinkToBase permalink
  let parts := splitSeps base
  let cleaned := parts.filter (fun p => !p.isEmpty && !tokenDropped p)
  let cleaned2 := if cleaned.isEmpty then parts.filter (fun p => !p.isEmpty) else cleaned
  let out := cleaned2.map fun p =>
    if pyIsUpper p && decide (p.length ≤ 4) then p else capFirst p
  List.intercalate [' '] out

/-- `choose_collection_dir(existing_dirs, collection)` (lines 78-97).  The
case-insensitive dict of the code is built from a Python set; the model takes
the directories as a list and lets the last case-colliding name win, matching
dict overwrite under the modelled iteration order. -/
def chooseCollectionDir (dirs : List Str) (coll : Str) : Option Str :=
  if coll ∈ dirs then some coll
  else
    let cands := [coll.map (fun c => if c = '/' then '-' else c),
                  coll.map (fun c => if c = '/' then ' ' else c),
                  coll.filter (fun c => !(c = '/'))]
    match cands.find? (fun c => decide (c ∈ dirs)) with
    | some c => some c
    | none =>
      let lowMatch := fun (k : Str) =>
        (dirs.filter (fun d => d.map Char.toLower = k.map Char.toLower)).getLast?
      match lowMatch coll with
      | some d => some d
      | none => cands.findSome? lowMatch

/-- First-seen season ordering (lines 222-231): collections in order of first
appearance, skipping falsy (absent or empty) ones. -/
def seasonOrder (entries : List Entry) : List Str :=
  entries.foldl
    (fun acc e =>
      match e.collection with
      | some c => if !c.isEmpty && !acc.contains c then acc ++ [c] else acc
      | none => acc)
    []

def seasonNum (entries : List Entry) (c : Str) : Nat :=
  (seasonOrder entries).indexOf c + 1

/-- The truthy `(collection, permalink)` key of an entry (`if not e.collection
or not e.permalink` guards the loop body). -/
def entryKey? (e : Entry) : Option (Str × Str) :=
  match e.collection, e.permalink with
  | some c, some p => if !c.isEmpty && !p.isEmpty then some (c, p) else none
  | _, _ => none

/-- The destination path of a planned move (lines 265-267). -/
def mkReorgDst (root show_ : Str) (s ep : Nat) (coll permalink : Str) : Str :=
  let seasonDir := safeComponent ("Season ".data ++ pad2 s ++ " - ".data ++ coll)
  let fname := safeComponent (show_ ++ " - S".data ++ pad2 s ++ "E".data ++
    pad2 ep ++ " - ".data ++ titleFromPermalink permalink ++ ".mp4".data)
  joinPath (joinPath (joinPath (joinPath root ("TV Shows".data)) show_) seasonDir) fname

/-- Accumulated state of the planning loop (lines 233-268). -/
structure PlanState where
  planned : List (Entry × Str × Str)
  missing : List (Entry × Str)
  dups : List (Entry × Str)
  seen : List (Str × Str)

/-- One iteration of the planning loop.  `findSrc cdir permalink` abstracts
`find_source_file(root, cdir, permalink, prefer_non_variants=True)` (the
filesystem oracle); the duplicate check and `seen` update happen before the
collection-directory and source lookups. -/
def reorgPlanStep (existingDirs : List Str) (findSrc : Str → Str → Option Str)
    (snum : Str → Nat) (root show_ : Str) (st : PlanState) (e : Entry) :
    PlanState :=
  match entryKey? e with
  | none =>
    { st with missing := st.missing ++ [(e, "missing_collection_or_permalink".data)] }
  | some key =>
    if key ∈ st.seen then
      { st with dups := st.dups ++ [(e, "duplicate_collection_permalink".data)] }
    else
      let st1 := { st with seen := st.seen ++ [key] }
      match chooseCollectionDir existingDirs key.1 with
      | none => { st1 with missing := st1.missing ++ [(e, "missing_collection_dir".data)] }
      | some cdir =>
        match findSrc cdir key.2 with
        | none => { st1 with missing := st1.missing ++ [(e, "missing_src".data)] }
        | some src =>
          let dst := mkReorgDst root show_ (snum key.1) (e.collectionIndex.getD 0)
            key.1 key.2
          { st1 with planned := st1.planned ++ [(e, src, dst)] }

/-- The full planning loop over the manifest entries. -/
def reorgPlan (existingDirs : List Str) (findSrc : Str → Str → Option Str)
    (root show_ : Str) (entries : List Entry) : PlanState :=
  entries.foldl (reorgPlanStep existingDirs findSrc (seasonNum entries) root show_)
    ⟨[], [], [], []⟩

/-- The destination-conflict computation (lines 270-272): destinations hit by
more than one planned operation. -/
def reorgConflicts (planned : List (Entry × Str × Str)) : List Str :=
  ((planned.map (fun t => t.2.2)).dedup).filter
    (fun d => 1 < (planned.map (fun t => t.2.2)).count d)

/-- Lines 273-274: `raise SystemExit` on any conflict — zero operations reach
the apply phase; otherwise the plan passes through unchanged. -/
def reorgPlanOrAbort (planned : List (Entry × Str × Str)) :
    Option (List (Entry × Str × Str)) :=
  if reorgConflicts planned = [] then some planned else none

/-! ### Single-show reorganization (jtswing_single_show.py) -/

/-- Code-point lexicographic comparison (Python string `<=`, ASCII range). -/
def strLe : Str → Str → Bool
  | [], _ => true
  | _ :: _, [] => false
  | c :: cs, d :: ds => if c = d then strLe cs ds else decide (c < d)

/-- Stable insertion sort modelling Python `sorted` under `strLe`. -/
def insertSorted (x : Str) : List Str → List Str
  | [] => [x]
  | y :: ys => if strLe x y then x :: y :: ys else y :: insertSorted x ys

def sortStr (l : List Str) : List Str := l.foldr insertSorted []

/-- `PREFERRED_ORDER` (jtswing_single_show.py lines 29-39). -/
def jtPreferredOrder : List Str :=
  ["Beginner".data, "Intermediate".data, "Advanced All-Star".data,
   "Drills".data, "Footwork".data, "Connection".data, "Musicality".data,
   "Concepts".data, "Old School Moves".data]

/-- Does `r` begin with `" - S(\d{2})E(\d+) - "` and end with a nonempty
title followed by `".mp4"`?  Tail matcher for `EP_RE`. -/
def epRETail (r : Str) : Option (Str × Nat × Str) :=
  match r with
  | ' ' :: '-' :: ' ' :: 'S' :: rest =>
    let ds := rest.takeWhile isDigitC
    if ds.length = 2 then
      match rest.drop 2 with
      | 'E' :: rest2 =>
        let es := rest2.takeWhile isDigitC
        if es.isEmpty then none
        else
          match rest2.drop es.length with
          | ' ' :: '-' :: ' ' :: rest3 =>
            if (".mp4".data).isSuffixOf rest3 && decide (5 ≤ rest3.length) then
              some (ds, digitsToNat es, rest3.take (rest3.length - 4))
            else none
          | _ => none
      | _ => none
    else none
  | _ => none

/-- `EP_RE.match(fn)` with pattern
`^(?P<prefix>.+?) - S(?P<s>\d{2})E(?P<e>\d+) - (?P<title>.+?)\.mp4$`: the
lazy prefix takes the shortest split whose tail matches. -/
def epREMatch (name : Str) : Option (Str × Str × Nat × Str) :=
  (List.range name.length).findSome? fun i =>
    if i = 0 then none
    else
      match epRETail (name.drop i) with
      | some (sTag, e, title) => some (name.take i, sTag, e, title)
      | none => none

/-- `f"{ep:02d}" if ep < 100 else str(ep)`. -/
def epTag (ep : Nat) : Str := if ep < 100 then pad2 ep else natRepr ep

/-- Season assignment (lines 83-93): preferred categories first, in preferred
order, then the remaining categories alphabetically. -/
def jtSeasonOrder (cats : List Str) : List Str :=
  let fromPref := jtPreferredOrder.foldl
    (fun acc c => if cats.contains c && !acc.contains c then acc ++ [c] else acc) []
  (sortStr cats).foldl
    (fun acc c => if acc.contains c then acc else acc ++ [c]) fromPref

def jtSeasonNum (cats : List Str) (c : Str) : Nat :=
  (jtSeasonOrder cats).indexOf c + 1

/-- The planning loop of jtswing_single_show.py (lines 95-117).  `catDirs`
lists the "JT *" category directories as (category, directory path, raw file
listing); `diskFs` is the set of paths existing on disk, consulted by
`unique_path`.  The whole plan is built before any apply, so planned
destinations are never added to `diskFs`. -/
def jtswingPlan (root show_ : Str) (catDirs : List (Str × Str × List Str))
    (diskFs : List Str) : List (Str × Str) :=
  let cats := catDirs.map Prod.fst
  catDirs.flatMap fun cd =>
    (sortStr cd.2.2).filterMap fun fn =>
      if (".mp4".data).isSuffixOf fn then
        match epREMatch fn with
        | some (_, _, e, title) =>
          let s := jtSeasonNum cats cd.1
          let seasonDir := safeComponent ("Season ".data ++ pad2 s ++ " - ".data ++ cd.1)
          let newFn := safeComponent (show_ ++ " - S".data ++ pad2 s ++ "E".data ++
            epTag e ++ " - ".data ++ stripWs title ++ ".mp4".data)
          let dst := uniquePath diskFs
            (joinPath (joinPath (joinPath root show_) seasonDir) newFn)
          some (joinPath cd.2.1 fn, dst)
        | none => none
      else none

/-! ### Uscreen tree organization (organize_uscreen_tree_as_show.py) -/

/-- `VIDEO_EXTS`. -/
def videoExts : List Str := [".mp4".data, ".mkv".data, ".mov".data, ".m4v".data]

/-- `is_video(path)`. -/
def isVideo (path : Str) : Bool :=
  videoExts.contains ((splitext path).2.map Char.toLower)

/-- `LEADING_EP_RE.match(s)` with pattern
`^(?P<ep>\d{1,4})\s*[-_. ]\s*(?P<rest>.+)$`, including the regex
backtracking over the whitespace runs around the separator. -/
def leadingEpSplit (s : Str) : Option (Nat × Str) :=
  let ds := s.takeWhile isDigitC
  if 1 ≤ ds.length ∧ ds.length ≤ 4 then
    let r := s.drop ds.length
    ((List.range ((r.takeWhile isWs).length + 1)).reverse).findSome? fun j =>
      match r.drop j with
      | c :: rest =>
        if c = '-' || c = '_' || c = '.' || c = ' ' then
          ((List.range ((rest.takeWhile isWs).length + 1)).reverse).findSome? fun j2 =>
            match rest.drop j2 with
            | [] => none
            | rest2 => some (digitsToNat ds, rest2)
        else none
      | [] => none
  else none

/-- `parse_ep(base)` (lines 67-74). -/
def parseEpU (base : Str) : Option Nat := (leadingEpSplit base).map Prod.fst

/-- Python `str.strip(chars)`. -/
def stripCharsSet (cs : List Char) (s : Str) : Str :=
  (s.dropWhile (fun c => cs.contains c)).rdropWhile (fun c => cs.contains c)

/-- `title_from_filename(base)` (organize_uscreen_tree_as_show.py lines 77-86). -/
def titleFromFilenameU (base : Str) : Str :=
  let name0 := (splitext base).1
  let name1 := bracketStrip name0
  let name2 := match leadingEpSplit name1 with
    | some (_, rest) => rest
    | none => name1
  let name3 := stripCharsSet [' ', '-', '_', '.'] name2
  let name4 := name3.map (fun c => if c = '_' then ' ' else c)
  let name5 := wsCollapse name4
  if name5.isEmpty then base else name5

/-- A leaf collection directory: its name and its (sorted) file listing. -/
structure Coll where
  name : Str
  files : List Str
deriving DecidableEq

/-- A category directory with its (sorted) collection subdirectories. -/
structure Cat where
  name : Str
  colls : List Coll
deriving DecidableEq

/-- The filesystem as the pipeline sees it: the source tree under `--src`
(categories and leaf collections in sorted listing order) and the set of file
paths existing under `--dst`. -/
structure UscreenWorld where
  cats : List Cat
  dst : List Str
deriving DecidableEq

inductive LinkMode
  | hardlink
  | copy
  | move
deriving DecidableEq

/-- The inner file loop of one season (lines 149-166, apply mode): each
destination is disambiguated by `unique_path` against the current dst set and
the applied operation creates it there (hardlink, copy and move all create
the destination). -/
def runSeasonFiles (show_ srcDir seasonDirPath : Str) (sidx : Nat) :
    List (Str × Nat) → List Str → List Str × List (Str × Str)
  | [], dstFs => (dstFs, [])
  | (base, ep) :: rest, dstFs =>
    let title := safeComponent (titleFromFilenameU base)
    let dstName := safeComponent (show_ ++ " - S".data ++ pad2 sidx ++ "E".data ++
      epTag ep ++ " - ".data ++ title ++ (splitext base).2)
    let dst := uniquePath dstFs (joinPath seasonDirPath dstName)
    let next := runSeasonFiles show_ srcDir seasonDirPath sidx rest (dst :: dstFs)
    (next.1, (joinPath srcDir base, dst) :: next.2)

/-- The season loop restricted to one category (lines 127-166): collections
with no video files are not seasons and are skipped without consuming a season
index; in move mode the processed video files leave the source collection. -/
def runColls (show_ srcRoot dstRoot catName : Str) (mode : LinkMode) :
    List Coll → Nat → List Str → List Coll × Nat × List Str × List (Str × Str)
  | [], sidx, dstFs => ([], sidx, dstFs, [])
  | coll :: rest, sidx, dstFs =>
    let vids := coll.files.filter isVideo
    if vids.isEmpty then
      let next := runColls show_ srcRoot dstRoot catName mode rest sidx dstFs
      (coll :: next.1, next.2.1, next.2.2.1, next.2.2.2)
    else
      let seasonName := safeComponent ("Season ".data ++ pad2 sidx ++ " - ".data ++
        catName ++ " - ".data ++ coll.name)
      let seasonDirPath := joinPath (joinPath dstRoot show_) seasonName
      let srcDir := joinPath (joinPath srcRoot catName) coll.name
      let eps := assignEpisodes (vids.map parseEpU)
      let fileRun := runSeasonFiles show_ srcDir seasonDirPath sidx
        (vids.zip eps) dstFs
      let coll2 : Coll :=
        { coll with files := if mode = .move
            then coll.files.filter (fun f => !isVideo f) else coll.files }
      let next := runColls show_ srcRoot dstRoot catName mode rest (sidx + 1) fileRun.1
      (coll2 :: next.1, next.2.1, next.2.2.1, fileRun.2 ++ next.2.2.2)

/-- The category loop threading the season index and dst set. -/
def runCats (show_ srcRoot dstRoot : Str) (mode : LinkMode) :
    List Cat → Nat → List Str → List Cat × Nat × List Str × List (Str × Str)
  | [], sidx, dstFs => ([], sidx, dstFs, [])
  | cat :: rest, sidx, dstFs =>
    let collRun := runColls show_ srcRoot dstRoot cat.name mode cat.colls sidx dstFs
    let next := runCats show_ srcRoot dstRoot mode rest collRun.2.1 collRun.2.2.1
    ({ cat with colls := collRun.1 } :: next.1, next.2.1, next.2.2.1,
      collRun.2.2.2 ++ next.2.2.2)

/-- One full plan-and-apply run (whole `main`, apply mode), returning the
mutated filesystem and the applied (src, dst) operations.  The model assumes
`dstRoot` lies outside the scanned source tree, as in the script's intended
invocation. -/
def runUscreen (show_ srcRoot dstRoot : Str) (mode : LinkMode)
    (w : UscreenWorld) : UscreenWorld × List (Str × Str) :=
  let r := runCats show_ srcRoot dstRoot mode w.cats 1 w.dst
  (⟨r.1, r.2.2.1⟩, r.2.2.2)

/-! ### Episode renaming (garysusan_rename_episode_files.py) -/

/-- The per-file decision of the main loop (lines 93-103): the title group of
`EP_FILE_RE` is bracket-stripped and trimmed, one collection-prefix echo is
removed and whitespace collapsed; a rename is planned only when THAT differs
from the bracket-stripped title — not from the raw title. -/
def gsRename (prefixes : List Str) (sTag eTag rawTitle : Str) : Option Str :=
  let title := stripWs (bracketStrip rawTitle)
  let newTitle := wsCollapse (stripEchoes prefixes title)
  if newTitle = title then none
  else some ("GarySusan - S".data ++ sTag ++ "E".data ++ eTag ++ " - ".data ++
    newTitle ++ ".mp4".data)

/-! ## Properties and claim theorems -/

lemma squeezed_nil : Squeezed [] := ⟨List.chain'_nil, by simp⟩

lemma head?_dropWhile_not_ws (l : Str) :
    ∀ x, (l.dropWhile isWs).head? = some x → ¬(isWs x = true) := by
  induction l with
  | nil => intro x hx; simp [List.dropWhile] at hx
  | cons c cs ih =>
    intro x hx
    by_cases hc : isWs c = true
    · rw [List.dropWhile_cons, if_pos hc] at hx
      exact ih x hx
    · rw [List.dropWhile_cons, if_neg hc] at hx
      simp only [List.head?_cons, Option.some.injEq] at hx
      exact hx ▸ hc

lemma dropWhile_eq_self_of_head? {l : Str}
    (h : ∀ x, l.head? = some x → ¬(isWs x = true)) : l.dropWhile isWs = l := by
  cases l with
  | nil => rfl
  | cons c cs => rw [List.dropWhile_cons, if_neg (h c rfl)]

lemma head?_of_initial {l₁ l₂ : Str} (h : l₁ <+: l₂) {x : Char}
    (hx : l₁.head? = some x) : l₂.head? = some x := by
  obtain ⟨t, ht⟩ := h
  subst ht
  cases l₁ with
  | nil => simp at hx
  | cons c cs => simpa using hx

lemma squeezeAux_true_eq_false {s : Str}
    (h : ∀ x, s.head? = some x → ¬(isWs x = true)) :
    squeezeAux true s = squeezeAux false s := by
  cases s with
  | nil => rfl
  | cons c cs =>
    have hc : ¬(isWs c = true) := h c rfl
    simp only [squeezeAux, if_neg hc]

lemma squeeze_eq_self {s : Str} (h : Squeezed s) : squeeze s = s := by
  unfold squeeze
  induction s with
  | nil => rfl
  | cons c cs ih =>
    obtain ⟨hch, hsp⟩ := h
    have htail : Squeezed cs :=
      ⟨(List.chain'_cons'.mp hch).2, fun d hd => hsp d (List.mem_cons_of_mem c hd)⟩
    by_cases hc : isWs c = true
    · have hcsp : c = ' ' := hsp c (by simp) hc
      have hhd : ∀ x, cs.head? = some x → ¬(isWs x = true) := by
        intro x hx hws
        rcases cs with _ | ⟨d, ds⟩
        · simp at hx
        · simp only [List.head?_cons, Option.some.injEq] at hx
          exact (List.chain'_cons'.mp hch).1 d rfl ⟨hc, hx ▸ hws⟩
      simp only [squeezeAux, if_pos hc, Bool.false_eq_true, if_neg (by simp : ¬False)]
      rw [squeezeAux_true_eq_false hhd, ih htail, hcsp]
    · simp only [squeezeAux, if_neg hc]
      rw [ih htail]

lemma squeezeAux_true_head?_not_ws (s : Str) :
    ∀ x, (squeezeAux true s).head? = some x → ¬(isWs x = true) := by
  induction s with
  | nil => intro x hx; simp [squeezeAux] at hx
  | cons c cs ih =>
    intro x hx
    by_cases hc : isWs c = true
    · rw [show squeezeAux true (c :: cs) = squeezeAux true cs by
        simp [squeezeAux, hc]] at hx
      exact ih x hx
    · rw [show squeezeAux true (c :: cs) = c :: squeezeAux false cs by
        simp [squeezeAux, hc]] at hx
      simp only [List.head?_cons, Option.some.injEq] at hx
      exact hx ▸ hc

lemma squeezeAux_squeezed (s : Str) : ∀ b, Squeezed (squeezeAux b s) := by
  induction s with
  | nil => intro b; exact squeezed_nil
  | cons c cs ih =>
    intro b
    by_cases hc : isWs c = true
    · cases b with
      | true =>
        rw [show squeezeAux true (c :: cs) = squeezeAux true cs by
          simp [squeezeAux, hc]]
        exact ih true
      | false =>
        rw [show squeezeAux false (c :: cs) = ' ' :: squeezeAux true cs by
          simp [squeezeAux, hc]]
        refine ⟨?_, ?_⟩
        · rw [List.chain'_cons']
          refine ⟨?_, (ih true).1⟩
          intro x hx hcon
          exact squeezeAux_true_head?_not_ws cs x (Option.mem_def.mp hx) hcon.2
        · intro d hd hdws
          rcases List.mem_cons.mp hd with h1 | h2
          · exact h1
          · exact (ih true).2 d h2 hdws
    · rw [show squeezeAux b (c :: cs) = c :: squeezeAux false cs by
        simp [squeezeAux, hc]]
      refine ⟨?_, ?_⟩
      · rw [List.chain'_cons']
        refine ⟨?_, (ih false).1⟩
        intro x _ hcon
        exact hc hcon.1
      · intro d hd hdws
        rcases List.mem_cons.mp hd with h1 | h2
        · exact absurd (h1 ▸ hdws) hc
        · exact (ih false).2 d h2 hdws

lemma squeeze_squeezed (s : Str) : Squeezed (squeeze s) := squeezeAux_squeezed s false

lemma stripWs_squeezed {s : Str} (h : Squeezed s) : Squeezed (stripWs s) := by
  obtain ⟨hch, hsp⟩ := h
  have h1 : (s.dropWhile isWs).rdropWhile isWs <+: s.dropWhile isWs :=
    List.rdropWhile_prefix _ _
  have h2 : s.dropWhile isWs <:+ s := List.dropWhile_suffix _
  have hchain := List.Chain'.prefix (hch.suffix h2) h1
  refine ⟨hchain, ?_⟩
  intro c hc hws
  exact hsp c (h2.subset (h1.subset hc)) hws

lemma stripWs_idem (s : Str) : stripWs (stripWs s) = stripWs s := by
  unfold stripWs
  have hpre : (s.dropWhile isWs).rdropWhile isWs <+: s.dropWhile isWs :=
    List.rdropWhile_prefix _ _
  have hh : ∀ x, ((s.dropWhile isWs).rdropWhile isWs).head? = some x →
      ¬(isWs x = true) := fun x hx =>
    head?_dropWhile_not_ws s x (head?_of_initial hpre hx)
  rw [dropWhile_eq_self_of_head? hh, List.rdropWhile_idempotent]

lemma wsCollapse_idem (s : Str) : wsCollapse (wsCollapse s) = wsCollapse s := by
  unfold wsCollapse
  rw [squeeze_eq_self (stripWs_squeezed (squeeze_squeezed s)), stripWs_idem]

lemma stripWs_wsCollapse (s : Str) : stripWs (wsCollapse s) = wsCollapse s :=
  stripWs_idem (squeeze s)

/-- C7: the title normalizer is NOT idempotent as claimed.  A second pass over
`"Coll - Coll - X"` (candidates `["Coll"]`) strips a second collection-prefix
echo, and a second pass of the plex-title postprocessing over `"X [1] (2)"`
strips a bracket id that the first pass left behind. -/
theorem c7_normalize_not_idempotent :
    normalizeGS ["Coll".data] (normalizeGS ["Coll".data] "Coll - Coll - X".data)
      ≠ normalizeGS ["Coll".data] "Coll - Coll - X".data ∧
    normalizePlexTitle (normalizePlexTitle "X [1] (2)".data)
      ≠ normalizePlexTitle "X [1] (2)".data := by
  decide

/-- C7 (amended): the normalization pipelines are idempotent exactly on inputs
whose first-pass output offers nothing further to strip: no trailing bracket
id, no matching leading collection-prefix echo (resp. no trailing cid or
duplicate-count marker). -/
theorem c7_normalize_idem_conditional :
    (∀ (ps : List Str) (raw : Str),
      bracketStrip (normalizeGS ps raw) = normalizeGS ps raw →
      ps.findSome? (fun p => stripEchoOne p (normalizeGS ps raw)) = none →
      normalizeGS ps (normalizeGS ps raw) = normalizeGS ps raw) ∧
    (∀ t : Str,
      bracketStrip (normalizePlexTitle t) = normalizePlexTitle t →
      cidStrip (normalizePlexTitle t) = normalizePlexTitle t →
      dupStrip (normalizePlexTitle t) = normalizePlexTitle t →
      normalizePlexTitle (normalizePlexTitle t) = normalizePlexTitle t) := by
  constructor
  · intro ps raw h1 h2
    have hstrip : stripWs (normalizeGS ps raw) = normalizeGS ps raw :=
      stripWs_wsCollapse _
    have hws : wsCollapse (normalizeGS ps raw) = normalizeGS ps raw :=
      wsCollapse_idem _
    calc normalizeGS ps (normalizeGS ps raw)
        = wsCollapse (stripEchoes ps (stripWs (bracketStrip (normalizeGS ps raw)))) := rfl
      _ = wsCollapse (stripEchoes ps (normalizeGS ps raw)) := by rw [h1, hstrip]
      _ = wsCollapse (stripWs (normalizeGS ps raw)) := by
            simp only [stripEchoes, h2]
      _ = normalizeGS ps raw := by rw [hstrip, hws]
  · intro t h1 h2 h3
    have hws : wsCollapse (normalizePlexTitle t) = normalizePlexTitle t :=
      wsCollapse_idem _
    calc normalizePlexTitle (normalizePlexTitle t)
        = wsCollapse (dupStrip (cidStrip (bracketStrip (normalizePlexTitle t)))) := rfl
      _ = wsCollapse (normalizePlexTitle t) := by rw [h1, h2, h3]
      _ = normalizePlexTitle t := hws

/-- C7 witness: a fully-normalized title is a fixed point of both pipelines. -/
theorem c7_normalize_idem_conditional_witness :
    normalizeGS ["Foundations".data]
        (normalizeGS ["Foundations".data] "Sugar Push".data)
      = normalizeGS ["Foundations".data] "Sugar Push".data ∧
    normalizePlexTitle (normalizePlexTitle "Sugar Push".data)
      = normalizePlexTitle "Sugar Push".data :=
  ⟨c7_normalize_idem_conditional.1 _ _ (by decide) (by decide),
   c7_normalize_idem_conditional.2 _ (by decide) (by decide) (by decide)⟩

lemma natDigitsAux_eq (fuel : Nat) :
    ∀ n, n ≤ fuel → natDigitsAux fuel n = (Nat.digits 10 n).map Nat.digitChar := by
  induction fuel with
  | zero =>
    intro n hn
    have : n = 0 := Nat.le_zero.mp hn
    subst this
    simp [natDigitsAux]
  | succ f ih =>
    intro n hn
    match n with
    | 0 => simp [natDigitsAux]
    | m + 1 =>
      rw [natDigitsAux, Nat.digits_def' (by norm_num : 1 < 10) (Nat.succ_pos m),
        List.map_cons, ih]
      have h1 : (m + 1) / 10 < m + 1 := Nat.div_lt_self (Nat.succ_pos m) (by norm_num)
      omega

lemma natRepr_eq (n : Nat) :
    natRepr n = if n = 0 then ['0'] else ((Nat.digits 10 n).map Nat.digitChar).reverse := by
  unfold natRepr
  by_cases h : n = 0
  · simp [h]
  · rw [if_neg h, if_neg h, natDigitsAux_eq n n (le_refl n)]

lemma digitChar_inj_lt {a b : Nat} (ha : a < 10) (hb : b < 10)
    (h : Nat.digitChar a = Nat.digitChar b) : a = b := by
  interval_cases a <;> interval_cases b <;> simp_all [Nat.digitChar]

lemma map_digitChar_inj : ∀ (l1 l2 : List Nat), (∀ x ∈ l1, x < 10) →
    (∀ x ∈ l2, x < 10) → l1.map Nat.digitChar = l2.map Nat.digitChar → l1 = l2 := by
  intro l1
  induction l1 with
  | nil => intro l2 _ _ h; cases l2 with
    | nil => rfl
    | cons c cs => simp at h
  | cons a as ih =>
    intro l2 h1 h2 h
    cases l2 with
    | nil => simp at h
    | cons b bs =>
      simp only [List.map_cons, List.cons.injEq] at h
      have hab : a = b := digitChar_inj_lt (h1 a (by simp)) (h2 b (by simp)) h.1
      have := ih bs (fun x hx => h1 x (by simp [hx])) (fun x hx => h2 x (by simp [hx])) h.2
      rw [hab, this]

lemma natRepr_inj : Function.Injective natRepr := by
  intro n m h
  rw [natRepr_eq, natRepr_eq] at h
  by_cases hn : n = 0 <;> by_cases hm : m = 0
  · rw [hn, hm]
  · exfalso
    rw [if_pos hn, if_neg hm] at h
    have hrev : (Nat.digits 10 m).map Nat.digitChar = ['0'] := by
      have := congrArg List.reverse h
      simpa using this.symm
    have hne : Nat.digits 10 m ≠ [] := Nat.digits_ne_nil_iff_ne_zero.mpr hm
    rcases hd : Nat.digits 10 m with _ | ⟨d, ds⟩
    · exact hne hd
    · rw [hd] at hrev
      simp only [List.map_cons] at hrev
      have hds : ds = [] := by
        cases ds with
        | nil => rfl
        | cons e es => simp at hrev
      subst hds
      simp only [List.map_nil, List.cons.injEq, and_true] at hrev
      have hd10 : d < 10 := Nat.digits_lt_base (by norm_num) (by rw [hd]; simp)
      have hd0 : d = 0 := digitChar_inj_lt hd10 (by norm_num) (by simpa [Nat.digitChar] using hrev)
      have hm0 : m = Nat.ofDigits 10 [0] := by
        rw [← Nat.ofDigits_digits 10 m, hd, hd0]
      simp [Nat.ofDigits] at hm0
      exact hm hm0
  · exfalso
    rw [if_neg hn, if_pos hm] at h
    have hrev : (Nat.digits 10 n).map Nat.digitChar = ['0'] := by
      have := congrArg List.reverse h
      simpa using this
    have hne : Nat.digits 10 n ≠ [] := Nat.digits_ne_nil_iff_ne_zero.mpr hn
    rcases hd : Nat.digits 10 n with _ | ⟨d, ds⟩
    · exact hne hd
    · rw [hd] at hrev
      simp only [List.map_cons] at hrev
      have hds : ds = [] := by
        cases ds with
        | nil => rfl
        | cons e es => simp at hrev
      subst hds
      simp only [List.map_nil, List.cons.injEq, and_true] at hrev
      have hd10 : d < 10 := Nat.digits_lt_base (by norm_num) (by rw [hd]; simp)
      have hd0 : d = 0 := digitChar_inj_lt hd10 (by norm_num) (by simpa [Nat.digitChar] using hrev)
      have hn0 : n = Nat.ofDigits 10 [0] := by
        rw [← Nat.ofDigits_digits 10 n, hd, hd0]
      simp [Nat.ofDigits] at hn0
      exact hn hn0
  · rw [if_neg hn, if_neg hm] at h
    have hmap : (Nat.digits 10 n).map Nat.digitChar = (Nat.digits 10 m).map Nat.digitChar := by
      have := congrArg List.reverse h
      simpa using this
    have hdig := map_digitChar_inj _ _
      (fun x hx => Nat.digits_lt_base (by norm_num) hx)
      (fun x hx => Nat.digits_lt_base (by norm_num) hx) hmap
    have h1 := Nat.ofDigits_digits 10 n
    have h2 := Nat.ofDigits_digits 10 m
    rw [← h1, ← h2, hdig]

lemma mkSuffixed_inj (base ext : Str) : Function.Injective (mkSuffixed base ext) := by
  intro n m h
  unfold mkSuffixed at h
  simp only [List.append_assoc] at h
  have h1 := List.append_cancel_left h
  have h2 := List.append_cancel_left h1
  rw [← List.append_assoc, ← List.append_assoc] at h2
  have h3 := List.append_cancel_right h2
  have h4 := List.append_cancel_right h3
  exact natRepr_inj h4

lemma exists_fresh (fs : List Str) (base ext : Str) (start : Nat) :
    ∃ k ≤ fs.length, mkSuffixed base ext (start + k) ∉ fs := by
  by_contra hcon
  push_neg at hcon
  have hsub : (Finset.range (fs.length + 1)).image
      (fun k => mkSuffixed base ext (start + k)) ⊆ fs.toFinset := by
    intro x hx
    rw [Finset.mem_image] at hx
    obtain ⟨k, hk, rfl⟩ := hx
    exact List.mem_toFinset.mpr (hcon k (Nat.lt_succ_iff.mp (Finset.mem_range.mp hk)))
  have hcard := Finset.card_le_card hsub
  rw [Finset.card_image_of_injective _
    (fun a b hab => Nat.add_left_cancel (mkSuffixed_inj base ext hab : start + a = start + b)),
    Finset.card_range] at hcard
  have := fs.toFinset_card_le
  omega

lemma uniquePathLoop_spec (fs : List Str) (base ext : Str) :
    ∀ (fuel n : Nat), (∃ k ≤ fuel, mkSuffixed base ext (n + k) ∉ fs) →
    ∃ k ≤ fuel, uniquePathLoop fs base ext fuel n = mkSuffixed base ext (n + k) ∧
      mkSuffixed base ext (n + k) ∉ fs ∧
      ∀ j < k, mkSuffixed base ext (n + j) ∈ fs := by
  intro fuel
  induction fuel with
  | zero =>
    rintro n ⟨k, hk, hnk⟩
    have hk0 : k = 0 := Nat.le_zero.mp hk
    subst hk0
    exact ⟨0, le_refl 0, rfl, hnk, fun j hj => absurd hj (Nat.not_lt_zero j)⟩
  | succ f ih =>
    rintro n ⟨k, hk, hnk⟩
    by_cases hmem : mkSuffixed base ext n ∈ fs
    · have hk0 : k ≠ 0 := by
        intro h0
        rw [h0, Nat.add_zero] at hnk
        exact hnk hmem
      obtain ⟨k', rfl⟩ : ∃ k', k = k' + 1 := ⟨k - 1, by omega⟩
      obtain ⟨k2, hk2, heq, hout, hall⟩ := ih (n + 1)
        ⟨k', by omega, by rw [show n + 1 + k' = n + (k' + 1) by omega]; exact hnk⟩
      refine ⟨k2 + 1, by omega, ?_, ?_, ?_⟩
      · rw [uniquePathLoop, if_pos hmem, heq]
        congr 1
        omega
      · rw [show n + (k2 + 1) = n + 1 + k2 by omega]
        exact hout
      · intro j hj
        cases j with
        | zero => simpa using hmem
        | succ j' =>
          have := hall j' (by omega)
          rw [show n + (j' + 1) = n + 1 + j' by omega]
          exact this
    · exact ⟨0, Nat.zero_le _, by rw [uniquePathLoop, if_neg hmem, Nat.add_zero],
        by rwa [Nat.add_zero], fun j hj => absurd hj (Nat.not_lt_zero j)⟩

/-- C6: `unique_path` never returns a path that exists on disk; when the
planned destination does not exist it is returned unchanged; when it does
exist the result is the planned path with `" (N)"` inserted before the
extension for the smallest `N ≥ 2` whose suffixed path does not exist. -/
theorem c6_unique_path_spec (fs : List Str) (path : Str) :
    uniquePath fs path ∉ fs ∧
    (path ∉ fs → uniquePath fs path = path) ∧
    (path ∈ fs → ∃ n, 2 ≤ n ∧
      uniquePath fs path = mkSuffixed (splitext path).1 (splitext path).2 n ∧
      mkSuffixed (splitext path).1 (splitext path).2 n ∉ fs ∧
      ∀ m, 2 ≤ m → m < n → mkSuffixed (splitext path).1 (splitext path).2 m ∈ fs) := by
  by_cases hp : path ∈ fs
  · have hfresh := exists_fresh fs (splitext path).1 (splitext path).2 2
    obtain ⟨k0, hk0, hfree⟩ := hfresh
    have hloop := uniquePathLoop_spec fs (splitext path).1 (splitext path).2
      (fs.length + 1) 2 ⟨k0, by omega, hfree⟩
    obtain ⟨k, hk, heq, hout, hall⟩ := hloop
    have hres : uniquePath fs path
        = mkSuffixed (splitext path).1 (splitext path).2 (2 + k) := by
      rw [uniquePath, if_pos hp, heq]
    refine ⟨by rw [hres]; exact hout, fun hnp => absurd hp hnp, fun _ => ?_⟩
    refine ⟨2 + k, by omega, hres, hout, ?_⟩
    intro m hm2 hmk
    have := hall (m - 2) (by omega)
    rw [show 2 + (m - 2) = m by omega] at this
    exact this
  · rw [uniquePath, if_neg hp]
    exact ⟨hp, fun _ => rfl, fun hin => absurd hin hp⟩

/-- C6 witness: with `a.mp4` and `a (2).mp4` on disk, the chosen suffix is the
smallest free `N = 3`. -/
theorem c6_unique_path_spec_witness :
    ∃ n, 2 ≤ n ∧
      uniquePath ["a.mp4".data, "a (2).mp4".data] "a.mp4".data
        = mkSuffixed (splitext "a.mp4".data).1 (splitext "a.mp4".data).2 n ∧
      mkSuffixed (splitext "a.mp4".data).1 (splitext "a.mp4".data).2 n
        ∉ ["a.mp4".data, "a (2).mp4".data] ∧
      ∀ m, 2 ≤ m → m < n →
        mkSuffixed (splitext "a.mp4".data).1 (splitext "a.mp4".data).2 m
          ∈ ["a.mp4".data, "a (2).mp4".data] :=
  (c6_unique_path_spec ["a.mp4".data, "a (2).mp4".data] "a.mp4".data).2.2 (by decide)

/-- C4: for a `BACKUP_THEN_REPLACE` operation, any failed precondition (in
particular a pre-existing backup location) fails the whole operation before
any rename, so nothing is moved and no backup is overwritten; on success the
pre-existing destination is relocated to the backup location strictly before
the variant is relocated into the vacated destination. -/
theorem c4_backup_then_replace_spec (fs : List Str) (p : PlanItem) :
    (p.backupOriginal ∈ fs → ∃ e, promoteOne fs p = (.error e, [])) ∧
    (∀ e, (promoteOne fs p).1 = .error e → (promoteOne fs p).2 = []) ∧
    (p.variant ∈ fs → p.original ∈ fs → p.backupOriginal ∉ fs →
      promoteOne fs p =
        (.ok (renameFs (renameFs fs p.original p.backupOriginal) p.variant p.original),
         [(p.original, p.backupOriginal), (p.variant, p.original)])) := by
  refine ⟨?_, ?_, ?_⟩
  · intro hb
    unfold promoteOne
    by_cases hv : p.variant ∈ fs
    · by_cases ho : p.original ∈ fs
      · rw [if_pos hv, if_pos ho, if_pos hb]
        exact ⟨.fileExists p.backupOriginal, rfl⟩
      · rw [if_pos hv, if_neg ho]
        exact ⟨.fileNotFound p.original, rfl⟩
    · rw [if_neg hv]
      exact ⟨.fileNotFound p.variant, rfl⟩
  · intro e he
    unfold promoteOne at he ⊢
    by_cases hv : p.variant ∈ fs
    · by_cases ho : p.original ∈ fs
      · by_cases hb : p.backupOriginal ∈ fs
        · rw [if_pos hv, if_pos ho, if_pos hb]
        · rw [if_pos hv, if_pos ho, if_neg hb] at he
          simp at he
      · rw [if_pos hv, if_neg ho]
    · rw [if_neg hv]
  · intro hv ho hb
    unfold promoteOne
    rw [if_pos hv, if_pos ho, if_neg hb]

/-- C4 witness: concrete success and concrete backup-collision failure. -/
theorem c4_backup_then_replace_spec_witness :
    promoteOne ["v".data, "o".data]
        ⟨"v".data, "o".data, "b".data⟩ =
      (.ok (renameFs (renameFs ["v".data, "o".data] "o".data "b".data) "v".data "o".data),
       [("o".data, "b".data), ("v".data, "o".data)]) ∧
    ∃ e, promoteOne ["v".data, "o".data, "b".data]
        ⟨"v".data, "o".data, "b".data⟩ = (.error e, []) :=
  ⟨(c4_backup_then_replace_spec ["v".data, "o".data]
      ⟨"v".data, "o".data, "b".data⟩).2.2 (by decide) (by decide) (by decide),
   (c4_backup_then_replace_spec ["v".data, "o".data, "b".data]
      ⟨"v".data, "o".data, "b".data⟩).1 (by decide)⟩

lemma promoteExecute_go (plan : List PlanItem) :
    ∀ (fs : List Str) (acc : List (PlanItem × Option FsError)),
    ((plan.foldl
      (fun acc p =>
        match promoteOne acc.1 p with
        | (.ok fs2, _) => (fs2, acc.2 ++ [(p, none)])
        | (.error e, _) => (acc.1, acc.2 ++ [(p, some e)]))
      (fs, acc)).2).map Prod.fst = acc.map Prod.fst ++ plan := by
  induction plan with
  | nil => intro fs acc; simp
  | cons p rest ih =>
    intro fs acc
    rw [List.foldl_cons]
    rcases hpo : promoteOne fs p with ⟨res, tr⟩
    cases res with
    | ok fs2 =>
      simp only [hpo]
      rw [ih fs2 (acc ++ [(p, none)])]
      simp
    | error e =>
      simp only [hpo]
      rw [ih fs (acc ++ [(p, some e)])]
      simp

/-- C5 (amended): the variant-promotion executor attempts every operation in
list order and records exactly one per-item outcome for each, regardless of
how many individual operations fail. -/
theorem c5_promote_executor_per_item (fs : List Str) (plan : List PlanItem) :
    ((promoteExecute fs plan).2).map Prod.fst = plan := by
  unfold promoteExecute
  rw [promoteExecute_go plan fs []]
  simp

/-- C5 counterexample: the jtswing apply loop has no per-item handler — a
missing source on the first of two operations aborts the batch: zero per-item
results are recorded and the second operation is never attempted even though
its source exists. -/
theorem c5_jtswing_abort_counterexample :
    jtswingApply ["/r/a.mp4".data]
        [("/r/missing.mp4".data, "/d/x.mp4".data),
         ("/r/a.mp4".data, "/d/y.mp4".data)]
      = (["/r/a.mp4".data], [], some "/r/missing.mp4".data) ∧
    [("/r/missing.mp4".data, "/d/x.mp4".data),
     ("/r/a.mp4".data, "/d/y.mp4".data)].length = 2 := by
  exact ⟨rfl, rfl⟩

lemma structStep_cases (dirListing : Option (List Str))
    (dirFull variantBase : Str) :
    structStep dirListing dirFull variantBase = none ∨
    ∃ sh sTag e fns, sxxexxMatch variantBase = some (sh, sTag, e) ∧
      dirListing = some fns ∧
      structStep dirListing dirFull variantBase
        = structPick dirFull (structCands fns sh sTag e) := by
  unfold structStep
  rcases hm : sxxexxMatch variantBase with _ | ⟨sh, sTag, e⟩
  · left
    rfl
  · rcases hdl : dirListing with _ | fns
    · left
      rfl
    · right
      exact ⟨sh, sTag, e, fns, rfl, rfl, rfl⟩

lemma structPick_found {dirFull : Str} {cands : List Str} {p : Str}
    (h : structPick dirFull cands = some (.found p)) :
    ∃ c, cands = [c] ∧ p = joinPath dirFull c := by
  match cands with
  | [] => exact absurd h (by simp [structPick])
  | [c] =>
    simp only [structPick, Option.some.injEq, MatchOutcome.found.injEq] at h
    exact ⟨c, rfl, h.symm⟩
  | c1 :: c2 :: rest => exact absurd h (by simp [structPick])

lemma structPick_ambiguous {dirFull : Str} {cands cs : List Str}
    (h : structPick dirFull cands = some (.ambiguous cs)) :
    cs = cands ∧ 2 ≤ cs.length := by
  match cands with
  | [] => exact absurd h (by simp [structPick])
  | [c] => exact absurd h (by simp [structPick])
  | c1 :: c2 :: rest =>
    simp only [structPick, Option.some.injEq, MatchOutcome.ambiguous.injEq] at h
    subst h
    refine ⟨rfl, ?_⟩
    simp

lemma baseFallback_found {idx : List (Str × Str)} {variantBase p : Str}
    (h : baseFallback idx variantBase = .found p) :
    ∃ c, baseCands idx variantBase = [c] ∧ idx.lookup c = some p := by
  unfold baseFallback at h
  rcases hc : baseCands idx variantBase with _ | ⟨c, cs⟩
  · rw [hc] at h
    exact absurd (h : MatchOutcome.notFound = .found p) (by simp)
  · cases cs with
    | nil =>
      rw [hc] at h
      have h3 : (match idx.lookup c with
          | some orig => MatchOutcome.found orig
          | none => MatchOutcome.notFound) = MatchOutcome.found p := h
      rcases hl : idx.lookup c with _ | orig
      · rw [hl] at h3
        exact absurd (h3 : MatchOutcome.notFound = .found p) (by simp)
      · rw [hl] at h3
        have h2 : orig = p := by
          have h4 := (h3 : MatchOutcome.found orig = .found p)
          simp only [MatchOutcome.found.injEq] at h4
          exact h4
        exact ⟨c, rfl, by rw [hl, h2]⟩
    | cons c2 cs2 =>
      rw [hc] at h
      exact absurd (h : MatchOutcome.notFound = .found p) (by simp)

lemma baseFallback_notFound {idx : List (Str × Str)} {variantBase : Str}
    (h : (baseCands idx variantBase).length ≠ 1) :
    baseFallback idx variantBase = .notFound := by
  unfold baseFallback
  rcases hc : baseCands idx variantBase with _ | ⟨c, cs⟩
  · rfl
  · cases cs with
    | nil => exact absurd (by rw [hc]; rfl) h
    | cons c2 cs2 => rfl

/-- C2 (amended): in `plan_promotions` the matcher never returns `Found`
unless the strategy that produced it had exactly one candidate (exact
relative-path hit, singleton structured candidate set, or singleton basename
candidate set); any `Ambiguous` outcome comes from the structured step and
lists its full candidate set of at least two; and when the basename fallback
is reached with a non-singleton candidate set the variant is reported
not-found — never an arbitrary pick, but a downgrade to NotFound rather than
the claimed Ambiguous.  (`find_source_file`'s startswith fallback, by
contrast, does pick the first of several matches; see the counterexample.) -/
theorem c2_source_matcher_spec (idx : List (Str × Str))
    (dirListing : Option (List Str)) (dirFull variantBase candidateRel : Str)
    (allow : Bool) :
    (∀ p, matchOriginal idx dirListing dirFull variantBase candidateRel allow
        = .found p →
      idx.lookup candidateRel = some p ∨
      (∃ sh sTag e fns c, sxxexxMatch variantBase = some (sh, sTag, e) ∧
        dirListing = some fns ∧ structCands fns sh sTag e = [c] ∧
        p = joinPath dirFull c) ∨
      (∃ c, baseCands idx variantBase = [c] ∧ idx.lookup c = some p)) ∧
    (∀ cs, matchOriginal idx dirListing dirFull variantBase candidateRel allow
        = .ambiguous cs →
      ∃ sh sTag e fns, sxxexxMatch variantBase = some (sh, sTag, e) ∧
        dirListing = some fns ∧ cs = structCands fns sh sTag e ∧ 2 ≤ cs.length) ∧
    (idx.lookup candidateRel = none →
      structStep dirListing dirFull variantBase = none →
      (baseCands idx variantBase).length ≠ 1 →
      matchOriginal idx dirListing dirFull variantBase candidateRel allow
        = .notFound) := by
  refine ⟨?_, ?_, ?_⟩
  · intro p h
    unfold matchOriginal at h
    rcases hl : idx.lookup candidateRel with _ | orig
    · rw [hl] at h
      have h3 : (match structStep dirListing dirFull variantBase with
          | some r => r
          | none => if allow then baseFallback idx variantBase
                    else MatchOutcome.notFound) = .found p := h
      rcases hs : structStep dirListing dirFull variantBase with _ | r
      · rw [hs] at h3
        cases allow with
        | false => exact absurd (h3 : MatchOutcome.notFound = .found p) (by simp)
        | true =>
          right; right
          exact baseFallback_found (h3 : baseFallback idx variantBase = .found p)
      · rw [hs] at h3
        have hr : r = MatchOutcome.found p := h3
        subst hr
        rcases structStep_cases dirListing dirFull variantBase with hnone | hsome
        · rw [hs] at hnone
          exact absurd hnone (by simp)
        · obtain ⟨sh, sTag, e, fns, hm, hdl, heq⟩ := hsome
          rw [hs] at heq
          obtain ⟨c, hc, hp⟩ := structPick_found heq.symm
          exact Or.inr (Or.inl ⟨sh, sTag, e, fns, c, hm, hdl, hc, hp⟩)
    · rw [hl] at h
      have h2 : orig = p := by
        have h4 := (h : MatchOutcome.found orig = .found p)
        simp only [MatchOutcome.found.injEq] at h4
        exact h4
      left
      rw [h2]
  · intro cs h
    unfold matchOriginal at h
    rcases hl : idx.lookup candidateRel with _ | orig
    · rw [hl] at h
      have h3 : (match structStep dirListing dirFull variantBase with
          | some r => r
          | none => if allow then baseFallback idx variantBase
                    else MatchOutcome.notFound) = .ambiguous cs := h
      rcases hs : structStep dirListing dirFull variantBase with _ | r
      · rw [hs] at h3
        cases allow with
        | false => exact absurd (h3 : MatchOutcome.notFound = .ambiguous cs) (by simp)
        | true =>
          exfalso
          have hb : baseFallback idx variantBase = .ambiguous cs := h3
          unfold baseFallback at hb
          rcases hc : baseCands idx variantBase with _ | ⟨c, cs1⟩
          · rw [hc] at hb
            exact absurd (hb : MatchOutcome.notFound = .ambiguous cs) (by simp)
          · cases cs1 with
            | nil =>
              rw [hc] at hb
              have hb2 : (match idx.lookup c with
                  | some orig => MatchOutcome.found orig
                  | none => MatchOutcome.notFound) = .ambiguous cs := hb
              rcases hl2 : idx.lookup c with _ | orig
              · rw [hl2] at hb2
                exact absurd (hb2 : MatchOutcome.notFound = .ambiguous cs) (by simp)
              · rw [hl2] at hb2
                exact absurd (hb2 : MatchOutcome.found orig = .ambiguous cs) (by simp)
            | cons c2 cs2 =>
              rw [hc] at hb
              exact absurd (hb : MatchOutcome.notFound = .ambiguous cs) (by simp)
      · rw [hs] at h3
        have hr : r = MatchOutcome.ambiguous cs := h3
        subst hr
        rcases structStep_cases dirListing dirFull variantBase with hnone | hsome
        · rw [hs] at hnone
          exact absurd hnone (by simp)
        · obtain ⟨sh, sTag, e, fns, hm, hdl, heq⟩ := hsome
          rw [hs] at heq
          obtain ⟨hcs, hlen⟩ := structPick_ambiguous heq.symm
          exact ⟨sh, sTag, e, fns, hm, hdl, hcs, hlen⟩
    · rw [hl] at h
      exact absurd (h : MatchOutcome.found orig = .ambiguous cs) (by simp)
  · intro hl hs hb
    unfold matchOriginal
    rw [hl, hs]
    cases allow with
    | false => rfl
    | true => exact baseFallback_notFound hb

/-- C2 counterexample: with two index entries `a/x.mp4` and `b/x.mp4` sharing
the expected basename, the fallback answers `NotFound` ("no matching
original"), not `Ambiguous`; and `find_source_file`, with two `startswith`
candidates in the listing, returns the first — an arbitrary pick. -/
theorem c2_source_matcher_counterexample :
    matchOriginal
        [("a/x.mp4".data, "/r/a/x.mp4".data), ("b/x.mp4".data, "/r/b/x.mp4".data)]
        (some []) "/r/v".data "x.plex-appletv.mp4".data "v/x.mp4".data true
      = .notFound ∧
    (baseCands
        [("a/x.mp4".data, "/r/a/x.mp4".data), ("b/x.mp4".data, "/r/b/x.mp4".data)]
        "x.plex-appletv.mp4".data).length = 2 ∧
    findSourceFile "/r/c".data (some ["v-a.mp4".data, "v-b.mp4".data]) "v".data true
      = some "/r/c/v-a.mp4".data ∧
    (["v-a.mp4".data, "v-b.mp4".data].filter (fun fn =>
        (".mp4".data).isSuffixOf fn && ("v".data).isPrefixOf fn &&
          !(true && containsSub (".plex-appletv".data) fn))).length = 2 := by
  refine ⟨by decide, by decide, by decide, by decide⟩

/-- C2 witness: a structured in-directory match with a unique candidate is a
`Found`, and the theorem attributes it to that singleton candidate set. -/
theorem c2_source_matcher_spec_witness :
    [("k/o.mp4".data, "/r/k/o.mp4".data)].lookup "v/zz.mp4".data
        = some "/r/k/Sh - S01E05 - Y.mp4".data ∨
    (∃ sh sTag e fns c,
      sxxexxMatch "Sh - S01E05 - X [9].plex-appletv.mp4".data = some (sh, sTag, e) ∧
      (some ["Sh - S01E05 - Y.mp4".data] : Option (List Str)) = some fns ∧
      structCands fns sh sTag e = [c] ∧
      "/r/k/Sh - S01E05 - Y.mp4".data = joinPath "/r/k".data c) ∨
    (∃ c, baseCands [("k/o.mp4".data, "/r/k/o.mp4".data)]
        "Sh - S01E05 - X [9].plex-appletv.mp4".data = [c] ∧
      [("k/o.mp4".data, "/r/k/o.mp4".data)].lookup c
        = some "/r/k/Sh - S01E05 - Y.mp4".data) :=
  (c2_source_matcher_spec [("k/o.mp4".data, "/r/k/o.mp4".data)]
      (some ["Sh - S01E05 - Y.mp4".data]) "/r/k".data
      "Sh - S01E05 - X [9].plex-appletv.mp4".data "v/zz.mp4".data true).1
    "/r/k/Sh - S01E05 - Y.mp4".data (by decide)

lemma seqFill_get (ex : List (Option Nat)) :
    ∀ (i s : Nat),
      (∀ e, ex[i]? = some (some e) → (seqFill ex s)[i]? = some e) ∧
      (ex[i]? = some none →
        (seqFill ex s)[i]? = some (s + (ex.take i).countP Option.isNone)) := by
  induction ex with
  | nil =>
    intro i s
    constructor
    · intro e h; simp at h
    · intro h; simp at h
  | cons a rest ih =>
    intro i s
    cases a with
    | some v =>
      cases i with
      | zero =>
        constructor
        · intro e h
          simp only [List.getElem?_cons_zero, Option.some.injEq] at h
          rw [seqFill]
          simp [← h]
        · intro h; simp at h
      | succ i' =>
        constructor
        · intro e h
          rw [List.getElem?_cons_succ] at h
          rw [seqFill, List.getElem?_cons_succ]
          exact (ih i' s).1 e h
        · intro h
          rw [List.getElem?_cons_succ] at h
          rw [seqFill, List.getElem?_cons_succ, (ih i' s).2 h]
          simp [List.countP_cons]
    | none =>
      cases i with
      | zero =>
        constructor
        · intro e h; simp at h
        · intro h
          rw [seqFill]
          simp
      | succ i' =>
        constructor
        · intro e h
          rw [List.getElem?_cons_succ] at h
          rw [seqFill, List.getElem?_cons_succ]
          exact (ih i' (s + 1)).1 e h
        · intro h
          rw [List.getElem?_cons_succ] at h
          rw [seqFill, List.getElem?_cons_succ, (ih i' (s + 1)).2 h]
          simp only [List.take_succ_cons, List.countP_cons, Option.some.injEq]
          simp [Option.isNone]
          omega

/-- C8: within one season group, a file with a parsed episode ordinal keeps
that ordinal verbatim, and a file without one receives `1 +` the number of
ordinal-less files before it in the (sorted) processing order — sequential
numbering starting at 1. -/
theorem c8_episode_numbering (ex : List (Option Nat)) (i : Nat) :
    (∀ e, ex[i]? = some (some e) → (assignEpisodes ex)[i]? = some e) ∧
    (ex[i]? = some none →
      (assignEpisodes ex)[i]? = some ((ex.take i).countP Option.isNone + 1)) := by
  have hall : assignEpisodes ex = seqFill ex 1 := by
    unfold assignEpisodes
    by_cases h : ex.any Option.isSome
    · rw [if_pos h]
    · rw [if_neg h]
      congr 1
      have hnone : ∀ x ∈ ex, x = none := by
        intro x hx
        rcases x with _ | v
        · rfl
        · exact absurd (List.any_eq_true.mpr ⟨some v, hx, rfl⟩) h
      calc ex.map (fun _ => none)
          = ex.map id := List.map_congr_left (fun x hx => ((hnone x hx).symm : (none : Option Nat) = x))
        _ = ex := List.map_id ex
  rw [hall]
  constructor
  · exact (seqFill_get ex i 1).1
  · intro h
    rw [(seqFill_get ex i 1).2 h]
    congr 1
    omega

/-- C8 witness: `[some 5, none, none]` keeps the explicit ordinal 5 at index 0
and numbers the ordinal-less files 1 and 2. -/
theorem c8_episode_numbering_witness :
    (assignEpisodes [some 5, none, none])[0]? = some 5 ∧
    (assignEpisodes [some 5, none, none])[2]? =
      some (([some 5, none, none].take 2).countP Option.isNone + 1) :=
  ⟨(c8_episode_numbering [some 5, none, none] 0).1 5 (by decide),
   (c8_episode_numbering [some 5, none, none] 2).2 (by decide)⟩

lemma count_le_one_iff_nodupStr (l : List Str) :
    (∀ a, l.count a ≤ 1) ↔ l.Nodup := by
  induction l with
  | nil => simp
  | cons a l ih =>
    rw [List.nodup_cons]
    constructor
    · intro h
      refine ⟨?_, ih.mp ?_⟩
      · intro hmem
        have h1 := h a
        rw [List.count_cons_self] at h1
        have h2 : 0 < l.count a := List.count_pos_iff.mpr hmem
        omega
      · intro b
        have h1 := h b
        rw [List.count_cons] at h1
        by_cases hab : (a == b) = true
        · rw [if_pos hab] at h1
          omega
        · rw [if_neg hab] at h1
          omega
    · rintro ⟨hna, hnd⟩ b
      rw [List.count_cons]
      by_cases hab : (a == b) = true
      · rw [if_pos hab]
        have hba : a = b := eq_of_beq hab
        subst hba
        rw [List.count_eq_zero.mpr hna]
      · rw [if_neg hab]
        have := ih.mpr hnd b
        omega

lemma dedupFilterCount_eq_nil_iff (l : List Str) :
    l.dedup.filter (fun d => 1 < l.count d) = [] ↔ l.Nodup := by
  rw [List.filter_eq_nil_iff, ← count_le_one_iff_nodupStr]
  constructor
  · intro h a
    by_cases ha : a ∈ l
    · have h2 := h a (List.mem_dedup.mpr ha)
      simp only [decide_eq_true_eq] at h2
      omega
    · have h3 := List.count_eq_zero.mpr ha
      omega
  · intro h a _
    have h2 := h a
    simp only [decide_eq_true_eq]
    omega

lemma reorgConflicts_eq_nil_iff (planned : List (Entry × Str × Str)) :
    reorgConflicts planned = [] ↔ (planned.map (fun t => t.2.2)).Nodup := by
  unfold reorgConflicts
  exact dedupFilterCount_eq_nil_iff (planned.map (fun t => t.2.2))

/-- C1 (amended): the manifest-driven planner (reorg_plex_tv.py) aborts with
zero operations exactly when some destination is targeted by more than one
planned operation; any plan that survives the check has pairwise-distinct
destinations, and only a surviving plan reaches the apply phase.  The jtswing
planner, by contrast, performs no batch-level conflict check (see the
counterexample). -/
theorem c1_conflict_abort (planned : List (Entry × Str × Str)) :
    (∀ ps, reorgPlanOrAbort planned = some ps →
      (ps.map (fun t => t.2.2)).Nodup) ∧
    (reorgPlanOrAbort planned = none ↔ ¬ (planned.map (fun t => t.2.2)).Nodup) := by
  constructor
  · intro ps hps
    unfold reorgPlanOrAbort at hps
    by_cases h : reorgConflicts planned = []
    · rw [if_pos h] at hps
      have hp : planned = ps := by simpa using hps
      subst hp
      exact (reorgConflicts_eq_nil_iff planned).mp h
    · rw [if_neg h] at hps
      simp at hps
  · unfold reorgPlanOrAbort
    by_cases h : reorgConflicts planned = []
    · rw [if_pos h]
      constructor
      · intro h0
        exact absurd h0 (by simp)
      · intro hn
        exact absurd ((reorgConflicts_eq_nil_iff planned).mp h) hn
    · rw [if_neg h]
      constructor
      · intro _ hn
        exact h ((reorgConflicts_eq_nil_iff planned).mpr hn)
      · intro _
        rfl

/-- C1 witness: a one-operation plan has no conflicting destinations and
passes through with a duplicate-free destination list. -/
theorem c1_conflict_abort_witness :
    ((([(⟨none, none, none, none, none, none⟩, "s".data, "d".data)] :
        List (Entry × Str × Str)).map (fun t => t.2.2)).Nodup) ∧
    ¬ (reorgPlanOrAbort
        [(⟨none, none, none, none, none, none⟩, "s".data, "d".data),
         (⟨none, none, none, none, none, none⟩, "s2".data, "d".data)] ≠ none) :=
  ⟨(c1_conflict_abort
      [(⟨none, none, none, none, none, none⟩, "s".data, "d".data)]).1 _ (by decide),
   fun hne => hne ((c1_conflict_abort
      [(⟨none, none, none, none, none, none⟩, "s".data, "d".data),
       (⟨none, none, none, none, none, none⟩, "s2".data, "d".data)]).2.mpr
      (by decide))⟩

/-- C1 counterexample: the jtswing planner emits a plan of two operations with
the same destination — two files of one category carrying the same episode
code and title map to one path, and `unique_path` cannot disambiguate because
neither exists on disk yet at planning time. -/
theorem c1_jtswing_duplicate_destinations :
    (jtswingPlan "/r".data "JTSwing".data
        [("Beginner".data, "/r/JT Beginner".data,
          ["A - S01E01 - X.mp4".data, "B - S01E01 - X.mp4".data])] []).length = 2 ∧
    ¬ ((jtswingPlan "/r".data "JTSwing".data
        [("Beginner".data, "/r/JT Beginner".data,
          ["A - S01E01 - X.mp4".data, "B - S01E01 - X.mp4".data])] []).map
        Prod.snd).Nodup := by
  refine ⟨by decide, by decide⟩

lemma reorgPlanStep_append (dirs : List Str) (f : Str → Str → Option Str)
    (sn : Str → Nat) (root sh : Str) (st : PlanState) (e : Entry) :
    ∃ pt mt dt snt,
      reorgPlanStep dirs f sn root sh st e =
        { planned := st.planned ++ pt, missing := st.missing ++ mt,
          dups := st.dups ++ dt, seen := st.seen ++ snt } := by
  rcases hk : entryKey? e with _ | k
  · exact ⟨[], [(e, "missing_collection_or_permalink".data)], [], [],
      by simp [reorgPlanStep, hk]⟩
  · by_cases hs : k ∈ st.seen
    · exact ⟨[], [], [(e, "duplicate_collection_permalink".data)], [],
        by simp [reorgPlanStep, hk, hs]⟩
    · rcases hc : chooseCollectionDir dirs k.1 with _ | cdir
      · exact ⟨[], [(e, "missing_collection_dir".data)], [], [k],
          by simp [reorgPlanStep, hk, hs, hc]⟩
      · rcases hf : f cdir k.2 with _ | src
        · exact ⟨[], [(e, "missing_src".data)], [], [k],
            by simp [reorgPlanStep, hk, hs, hc, hf]⟩
        · exact ⟨[(e, src, mkReorgDst root sh (sn k.1) (e.collectionIndex.getD 0)
            k.1 k.2)], [], [], [k],
            by simp [reorgPlanStep, hk, hs, hc, hf]⟩

lemma reorgFold_append (dirs : List Str) (f : Str → Str → Option Str)
    (sn : Str → Nat) (root sh : Str) (l : List Entry) :
    ∀ st : PlanState, ∃ pt mt dt snt,
      l.foldl (reorgPlanStep dirs f sn root sh) st =
        { planned := st.planned ++ pt, missing := st.missing ++ mt,
          dups := st.dups ++ dt, seen := st.seen ++ snt } := by
  induction l with
  | nil =>
    intro st
    exact ⟨[], [], [], [], by simp⟩
  | cons e rest ih =>
    intro st
    rw [List.foldl_cons]
    obtain ⟨pt1, mt1, dt1, snt1, h1⟩ := reorgPlanStep_append dirs f sn root sh st e
    obtain ⟨pt2, mt2, dt2, snt2, h2⟩ := ih (reorgPlanStep dirs f sn root sh st e)
    rw [h2, h1]
    exact ⟨pt1 ++ pt2, mt1 ++ mt2, dt1 ++ dt2, snt1 ++ snt2, by simp⟩

lemma reorgPlanStep_seen_of_key (dirs : List Str) (f : Str → Str → Option Str)
    (sn : Str → Nat) (root sh : Str) (st : PlanState) {e : Entry} {k : Str × Str}
    (hk : entryKey? e = some k) :
    k ∈ (reorgPlanStep dirs f sn root sh st e).seen := by
  by_cases hs : k ∈ st.seen
  · simp [reorgPlanStep, hk, hs]
  · rcases hc : chooseCollectionDir dirs k.1 with _ | cdir
    · simp [reorgPlanStep, hk, hs, hc]
    · rcases hf : f cdir k.2 with _ | src
      · simp [reorgPlanStep, hk, hs, hc, hf]
      · simp [reorgPlanStep, hk, hs, hc, hf]

lemma reorgPlanStep_dups_of_seen (dirs : List Str) (f : Str → Str → Option Str)
    (sn : Str → Nat) (root sh : Str) (st : PlanState) {e : Entry} {k : Str × Str}
    (hk : entryKey? e = some k) (hs : k ∈ st.seen) :
    (reorgPlanStep dirs f sn root sh st e).dups
      = st.dups ++ [(e, "duplicate_collection_permalink".data)] := by
  simp [reorgPlanStep, hk, hs]

lemma reorgFold_seen_of_mem (dirs : List Str) (f : Str → Str → Option Str)
    (sn : Str → Nat) (root sh : Str) (l : List Entry) :
    ∀ (st : PlanState) (ei : Entry) (k : Str × Str), ei ∈ l →
      entryKey? ei = some k →
      k ∈ (l.foldl (reorgPlanStep dirs f sn root sh) st).seen := by
  induction l with
  | nil =>
    intro st ei k h
    simp at h
  | cons e rest ih =>
    intro st ei k hmem hk
    rw [List.foldl_cons]
    rcases List.mem_cons.mp hmem with h1 | h2
    · subst h1
      obtain ⟨pt, mt, dt, snt, hfold⟩ :=
        reorgFold_append dirs f sn root sh rest (reorgPlanStep dirs f sn root sh st ei)
      rw [hfold]
      simp only [List.mem_append]
      left
      exact reorgPlanStep_seen_of_key dirs f sn root sh st hk
    · exact ih (reorgPlanStep dirs f sn root sh st e) ei k h2 hk

/-- The planned list of any reachable state carries pairwise-distinct keys,
each of them recorded in `seen`. -/
def ReorgInv (st : PlanState) : Prop :=
  (st.planned.map (fun t => entryKey? t.1)).Nodup ∧
  ∀ t ∈ st.planned, ∃ k, entryKey? t.1 = some k ∧ k ∈ st.seen

lemma reorgPlanStep_inv (dirs : List Str) (f : Str → Str → Option Str)
    (sn : Str → Nat) (root sh : Str) (st : PlanState) (e : Entry)
    (h : ReorgInv st) : ReorgInv (reorgPlanStep dirs f sn root sh st e) := by
  obtain ⟨hnd, hseen⟩ := h
  rcases hk : entryKey? e with _ | k
  · have hstep : reorgPlanStep dirs f sn root sh st e =
        { st with missing := st.missing ++ [(e, "missing_collection_or_permalink".data)] } := by
      simp [reorgPlanStep, hk]
    rw [hstep]
    exact ⟨hnd, hseen⟩
  · by_cases hs : k ∈ st.seen
    · have hstep : reorgPlanStep dirs f sn root sh st e =
          { st with dups := st.dups ++ [(e, "duplicate_collection_permalink".data)] } := by
        simp [reorgPlanStep, hk, hs]
      rw [hstep]
      exact ⟨hnd, hseen⟩
    · rcases hc : chooseCollectionDir dirs k.1 with _ | cdir
      · have hstep : reorgPlanStep dirs f sn root sh st e =
            { st with missing := st.missing ++ [(e, "missing_collection_dir".data)],
                      seen := st.seen ++ [k] } := by
          simp [reorgPlanStep, hk, hs, hc]
        rw [hstep]
        refine ⟨hnd, ?_⟩
        intro t ht
        obtain ⟨k2, hk2, hk2s⟩ := hseen t ht
        exact ⟨k2, hk2, by simp [hk2s]⟩
      · rcases hf : f cdir k.2 with _ | src
        · have hstep : reorgPlanStep dirs f sn root sh st e =
              { st with missing := st.missing ++ [(e, "missing_src".data)],
                        seen := st.seen ++ [k] } := by
            simp [reorgPlanStep, hk, hs, hc, hf]
          rw [hstep]
          refine ⟨hnd, ?_⟩
          intro t ht
          obtain ⟨k2, hk2, hk2s⟩ := hseen t ht
          exact ⟨k2, hk2, by simp [hk2s]⟩
        · have hstep : reorgPlanStep dirs f sn root sh st e =
              { st with planned := st.planned ++ [(e, src,
                  mkReorgDst root sh (sn k.1) (e.collectionIndex.getD 0) k.1 k.2)],
                        seen := st.seen ++ [k] } := by
            simp [reorgPlanStep, hk, hs, hc, hf]
          rw [hstep]
          constructor
          · simp only [List.map_append, List.map_cons, List.map_nil]
            rw [List.nodup_append]
            refine ⟨hnd, List.nodup_singleton _, ?_⟩
            intro a ha hb
            simp only [List.mem_singleton] at hb
            subst hb
            rw [List.mem_map] at ha
            obtain ⟨t, ht, hkey⟩ := ha
            obtain ⟨k2, hk2, hk2s⟩ := hseen t ht
            rw [hk2, hk] at hkey
            have hkk : k2 = k := by simpa using hkey
            subst hkk
            exact hs hk2s
          · intro t ht
            rcases List.mem_append.mp ht with h1 | h2
            · obtain ⟨k2, hk2, hk2s⟩ := hseen t h1
              exact ⟨k2, hk2, by simp [hk2s]⟩
            · simp only [List.mem_singleton] at h2
              subst h2
              exact ⟨k, hk, by simp⟩

lemma reorgFold_inv (dirs : List Str) (f : Str → Str → Option Str)
    (sn : Str → Nat) (root sh : Str) (l : List Entry) :
    ∀ st : PlanState, ReorgInv st →
      ReorgInv (l.foldl (reorgPlanStep dirs f sn root sh) st) := by
  induction l with
  | nil =>
    intro st h
    exact h
  | cons e rest ih =>
    intro st h
    rw [List.foldl_cons]
    exact ih _ (reorgPlanStep_inv dirs f sn root sh st e h)

lemma reorgPlanStep_oracle_indep (dirs : List Str)
    (f g : Str → Str → Option Str) (sn : Str → Nat) (root sh : Str)
    (stf stg : PlanState) (e : Entry)
    (hseen : stf.seen = stg.seen) (hdups : stf.dups = stg.dups) :
    (reorgPlanStep dirs f sn root sh stf e).seen
      = (reorgPlanStep dirs g sn root sh stg e).seen ∧
    (reorgPlanStep dirs f sn root sh stf e).dups
      = (reorgPlanStep dirs g sn root sh stg e).dups := by
  rcases hk : entryKey? e with _ | k
  · constructor <;> simp [reorgPlanStep, hk, hseen, hdups]
  · by_cases hs : k ∈ stf.seen
    · have hs2 : k ∈ stg.seen := hseen ▸ hs
      constructor <;> simp [reorgPlanStep, hk, hs, hs2, hseen, hdups]
    · have hs2 : ¬ k ∈ stg.seen := hseen ▸ hs
      rcases hc : chooseCollectionDir dirs k.1 with _ | cdir
      · constructor <;> simp [reorgPlanStep, hk, hs, hs2, hc, hseen, hdups]
      · rcases hff : f cdir k.2 with _ | src <;>
          rcases hgg : g cdir k.2 with _ | src2 <;>
          (constructor <;> simp [reorgPlanStep, hk, hs, hs2, hc, hff, hgg, hseen, hdups])

lemma reorgFold_oracle_indep (dirs : List Str)
    (f g : Str → Str → Option Str) (sn : Str → Nat) (root sh : Str)
    (l : List Entry) :
    ∀ stf stg : PlanState, stf.seen = stg.seen → stf.dups = stg.dups →
      (l.foldl (reorgPlanStep dirs f sn root sh) stf).seen
        = (l.foldl (reorgPlanStep dirs g sn root sh) stg).seen ∧
      (l.foldl (reorgPlanStep dirs f sn root sh) stf).dups
        = (l.foldl (reorgPlanStep dirs g sn root sh) stg).dups := by
  induction l with
  | nil =>
    intro stf stg h1 h2
    exact ⟨h1, h2⟩
  | cons e rest ih =>
    intro stf stg h1 h2
    rw [List.foldl_cons, List.foldl_cons]
    obtain ⟨h3, h4⟩ := reorgPlanStep_oracle_indep dirs f g sn root sh stf stg e h1 h2
    exact ih _ _ h3 h4

/-- C10: a manifest entry whose (collection, permalink) key already occurred
earlier is recorded as a duplicate SKIP before any source matching — so the
planned operations carry pairwise-distinct keys (at most one operation per
key), every later duplicate lands in the duplicate list with reason
`duplicate_collection_permalink`, and the duplicate list does not depend on
the source-matching oracle at all. -/
theorem c10_duplicate_manifest_entries (dirs : List Str)
    (f g : Str → Str → Option Str) (root show_ : Str) (entries : List Entry) :
    ((reorgPlan dirs f root show_ entries).planned.map
        (fun t => entryKey? t.1)).Nodup ∧
    (∀ l₁ ej l₂ ei k, entries = l₁ ++ ej :: l₂ → ei ∈ l₁ →
      entryKey? ei = some k → entryKey? ej = some k →
      (ej, "duplicate_collection_permalink".data)
        ∈ (reorgPlan dirs f root show_ entries).dups) ∧
    (reorgPlan dirs f root show_ entries).dups
      = (reorgPlan dirs g root show_ entries).dups := by
  refine ⟨?_, ?_, ?_⟩
  · exact (reorgFold_inv dirs f (seasonNum entries) root show_ entries
      ⟨[], [], [], []⟩ ⟨List.nodup_nil, by simp⟩).1
  · intro l₁ ej l₂ ei k hsplit hmem hkei hkej
    unfold reorgPlan
    obtain ⟨sn, hsn⟩ : ∃ sn, seasonNum entries = sn := ⟨_, rfl⟩
    rw [hsn, hsplit, List.foldl_append, List.foldl_cons]
    set st₁ := l₁.foldl (reorgPlanStep dirs f sn root show_) ⟨[], [], [], []⟩ with hst₁
    have hkseen : k ∈ st₁.seen :=
      reorgFold_seen_of_mem dirs f sn root show_ l₁ ⟨[], [], [], []⟩ ei k hmem hkei
    have hdups : (reorgPlanStep dirs f sn root show_ st₁ ej).dups
        = st₁.dups ++ [(ej, "duplicate_collection_permalink".data)] :=
      reorgPlanStep_dups_of_seen dirs f sn root show_ st₁ hkej hkseen
    obtain ⟨pt, mt, dt, snt, hfold⟩ := reorgFold_append dirs f sn root show_ l₂
      (reorgPlanStep dirs f sn root show_ st₁ ej)
    rw [hfold, hdups]
    simp
  · exact (reorgFold_oracle_indep dirs f g (seasonNum entries) root show_ entries
      ⟨[], [], [], []⟩ ⟨[], [], [], []⟩ rfl rfl).2

/-- C10 witness: two identical manifest entries — the second lands in the
duplicate list. -/
theorem c10_duplicate_manifest_entries_witness :
    (⟨none, some "C".data, none, none, none, some "P".data⟩,
        "duplicate_collection_permalink".data)
      ∈ (reorgPlan ["C".data] (fun _ _ => some "src".data) "/r".data "Sh".data
          [⟨none, some "C".data, none, none, none, some "P".data⟩,
           ⟨none, some "C".data, none, none, none, some "P".data⟩]).dups :=
  (c10_duplicate_manifest_entries ["C".data] (fun _ _ => some "src".data)
      (fun _ _ => some "src".data) "/r".data "Sh".data
      [⟨none, some "C".data, none, none, none, some "P".data⟩,
       ⟨none, some "C".data, none, none, none, some "P".data⟩]).2.1
    [⟨none, some "C".data, none, none, none, some "P".data⟩]
    ⟨none, some "C".data, none, none, none, some "P".data⟩ []
    ⟨none, some "C".data, none, none, none, some "P".data⟩
    ("C".data, "P".data) rfl (by simp) (by decide) (by decide)

lemma filter_video_filter_not (files : List Str) :
    (files.filter (fun f => !isVideo f)).filter isVideo = [] := by
  rw [List.filter_eq_nil_iff]
  intro a ha
  have h2 := List.mem_filter.mp ha
  simp only [Bool.not_eq_true'] at h2
  simp [h2.2]

lemma runColls_move_fst (show_ srcRoot dstRoot catName : Str) (colls : List Coll) :
    ∀ (sidx : Nat) (dstFs : List Str),
      (runColls show_ srcRoot dstRoot catName .move colls sidx dstFs).1
        = colls.map (fun c => if (c.files.filter isVideo).isEmpty then c
            else { c with files := c.files.filter (fun f => !isVideo f) }) := by
  induction colls with
  | nil =>
    intro sidx dstFs
    simp [runColls]
  | cons c rest ih =>
    intro sidx dstFs
    by_cases hv : (c.files.filter isVideo).isEmpty = true
    · have hall : ∀ a ∈ c.files, isVideo a = false := by
        simpa using hv
      simp [runColls, hv, ih]
      rw [if_pos hall]
    · have hnall : ¬ (∀ a ∈ c.files, isVideo a = false) := by
        simpa using hv
      simp [runColls, hv, ih]
      rw [if_neg hnall]

lemma runColls_no_vids (show_ srcRoot dstRoot catName : Str) (mode : LinkMode)
    (colls : List Coll) :
    ∀ (sidx : Nat) (dstFs : List Str),
      (∀ c ∈ colls, c.files.filter isVideo = []) →
      runColls show_ srcRoot dstRoot catName mode colls sidx dstFs
        = (colls, sidx, dstFs, []) := by
  induction colls with
  | nil =>
    intro sidx dstFs _
    simp [runColls]
  | cons c rest ih =>
    intro sidx dstFs h
    have hc : c.files.filter isVideo = [] := h c (by simp)
    have hv : (c.files.filter isVideo).isEmpty = true := by
      rw [hc]
      rfl
    have hrest := ih sidx dstFs (fun c2 hc2 => h c2 (by simp [hc2]))
    simp [runColls, hv, hrest]

lemma runCats_move_fst (show_ srcRoot dstRoot : Str) (cats : List Cat) :
    ∀ (sidx : Nat) (dstFs : List Str),
      (runCats show_ srcRoot dstRoot .move cats sidx dstFs).1
        = cats.map (fun cat => { cat with
            colls := cat.colls.map (fun c => if (c.files.filter isVideo).isEmpty then c
              else { c with files := c.files.filter (fun f => !isVideo f) }) }) := by
  induction cats with
  | nil =>
    intro sidx dstFs
    simp [runCats]
  | cons cat rest ih =>
    intro sidx dstFs
    simp [runCats, runColls_move_fst, ih]

lemma runCats_no_vids (show_ srcRoot dstRoot : Str) (mode : LinkMode)
    (cats : List Cat) :
    ∀ (sidx : Nat) (dstFs : List Str),
      (∀ cat ∈ cats, ∀ c ∈ cat.colls, c.files.filter isVideo = []) →
      (runCats show_ srcRoot dstRoot mode cats sidx dstFs).2.2.2 = [] := by
  induction cats with
  | nil =>
    intro sidx dstFs _
    simp [runCats]
  | cons cat rest ih =>
    intro sidx dstFs h
    have hcolls := runColls_no_vids show_ srcRoot dstRoot cat.name mode cat.colls
      sidx dstFs (h cat (by simp))
    have hrest := ih sidx dstFs (fun c2 hc2 => h c2 (by simp [hc2]))
    simp [runCats, hcolls, hrest]

/-- C3 (amended): in move mode the pipeline is idempotent — after one apply,
every source collection has lost its video files, so a second plan-and-apply
run finds no seasons and produces zero operations. -/
theorem c3_move_mode_idempotent (show_ srcRoot dstRoot : Str) (w : UscreenWorld) :
    (runUscreen show_ srcRoot dstRoot .move
      (runUscreen show_ srcRoot dstRoot .move w).1).2 = [] := by
  unfold runUscreen
  apply runCats_no_vids
  intro cat hcat c hc
  have hcat2 : cat ∈ (runCats show_ srcRoot dstRoot .move w.cats 1 w.dst).1 := hcat
  rw [runCats_move_fst] at hcat2
  rw [List.mem_map] at hcat2
  obtain ⟨cat0, _, hcat0⟩ := hcat2
  subst hcat0
  simp only [List.mem_map] at hc
  obtain ⟨c0, _, hc0⟩ := hc
  subst hc0
  by_cases hv : (c0.files.filter isVideo).isEmpty = true
  · rw [if_pos hv]
    exact List.isEmpty_iff.mp hv
  · rw [if_neg hv]
    exact filter_video_filter_not c0.files

/-- C3 counterexample: in the default hardlink mode the source tree is left
intact, so the second apply re-plans the same item and the disambiguation
suffix `" (2)"` fires — the second run's operation list is not empty. -/
theorem c3_hardlink_not_idempotent :
    (runUscreen "Show".data "/s".data "/d".data .hardlink
      (runUscreen "Show".data "/s".data "/d".data .hardlink
        ⟨[⟨"C".data, [⟨"K".data, ["01 - A.mp4".data]⟩]⟩], []⟩).1).2
    = [("/s/C/K/01 - A.mp4".data,
        "/d/Show/Season 01 - C - K/Show - S01E01 - A (2).mp4".data)] ∧
    [("/s/C/K/01 - A.mp4".data,
      "/d/Show/Season 01 - C - K/Show - S01E01 - A (2).mp4".data)] ≠
      ([] : List (Str × Str)) := by
  refine ⟨by decide, by decide⟩

/-- C9: bug — a rename is planned only when the normalized title differs from
the BRACKET-STRIPPED title, not from the raw title: a file whose only
decoration is a trailing bracket id, such as
`GarySusan - S01E01 - Sugar Push [123].mp4`, is left unrenamed although its
normalized title (`"Sugar Push"`) differs from its raw title, contradicting
the script's own docstring ("Also strips trailing bracket IDs"). -/
theorem c9_bracket_only_title_not_renamed :
    gsRename ["Foundations".data] "01".data "01".data "Sugar Push [123]".data
      = none ∧
    normalizeGS ["Foundations".data] "Sugar Push [123]".data
      ≠ "Sugar Push [123]".data ∧
    gsRename ["Foundations".data] "01".data "01".data
        "Foundations - Sugar Push [1516845]".data
      = some "GarySusan - S01E01 - Sugar Push.mp4".data := by
  refine ⟨by decide, by decide, by decide⟩

end PlexImport
